import Mathlib

/-!
Verification of the PPAW-BACK versioned image-editing core.

This file gives a shallow embedding, in Lean, of the parts of the code base
that the specification talks about: the JSON-ish dynamic values flowing
through the plan-configuration decoders (`src/models/uploadModel.ts`,
`subscriptionFeatureModel` in the unnamed sources), the version-chain engine
(`src/models/filterModel.ts`, `src/models/watermarkModel.ts`), the request
normalisation and validation in `src/controllers/filterController.ts`, the
quota gate of `src/controllers/uploadController.ts`, and the plan-assignment
transaction (`setUserActivePlan`).

The database is modelled as explicit lists of rows; a Prisma `findFirst`
with an `orderBy` list is modelled as the head of a stable sort, i.e. the
leftmost row among those maximal for the requested ordering.  Row creation
appends to the row list; `deleteMany` filters it.  Each model-level function
takes the database state and returns the result together with the new state.
-/

namespace PPAW

/-- Dynamic JavaScript/JSON values as they appear in request bodies and in
the semi-structured `limitsJson` / `featuresJson` / version-`metadata`
documents.  `undefVal` is JavaScript `undefined` (a missing field). -/
inductive JsVal where
  | undefVal
  | jnull
  | bool (b : Bool)
  | num (q : Rat)
  | str (s : String)
  | arr (xs : List JsVal)
  | obj (fields : List (String × JsVal))

/-- JavaScript property access `v.key`: field lookup on an object, `undefined`
on anything else (arrays and primitives have none of the named fields used by
the code). -/
def getField (v : JsVal) (key : String) : JsVal :=
  match v with
  | .obj fields =>
    match fields.find? (fun f => f.1 == key) with
    | some f => f.2
    | none => .undefVal
  | _ => .undefVal

/-- JavaScript object spread update `{ ...o, key: v }`: replace the value of
an existing key in place, or append the binding. -/
def setField (v : JsVal) (key : String) (val : JsVal) : JsVal :=
  match v with
  | .obj fields =>
    if fields.any (fun f => f.1 == key) then
      .obj (fields.map (fun f => if f.1 == key then (f.1, val) else f))
    else
      .obj (fields ++ [(key, val)])
  | _ => v

/-- ASCII lower-casing of one character, as `String.prototype.toLowerCase`
acts on the ASCII strings compared by the decoders. -/
def charToLower (c : Char) : Char :=
  if 'A' ≤ c ∧ c ≤ 'Z' then Char.ofNat (c.toNat + 32) else c

/-- `String.prototype.toLowerCase` on ASCII strings (kernel-reducible). -/
def jsToLower (s : String) : String :=
  ⟨s.data.map charToLower⟩

def isJsSpace (c : Char) : Bool :=
  c == ' ' || c == '\t' || c == '\n' || c == '\r'

/-- `String.prototype.trim` (kernel-reducible model over the character
list). -/
def jsTrim (s : String) : String :=
  ⟨((s.data.dropWhile isJsSpace).reverse.dropWhile isJsSpace).reverse⟩

def digitsToNat? : List Char → Option Nat
  | [] => none
  | cs =>
    cs.foldl
      (fun acc c =>
        match acc with
        | none => none
        | some n => if c.isDigit then some (n * 10 + (c.toNat - '0'.toNat)) else none)
      (some 0)

/-- Model of JavaScript `Number(s)` on an already-trimmed, non-empty string,
restricted to plain decimal literals (optional sign, integer part, optional
fraction); exotic numeric forms (hex, exponents, `Infinity`) are outside what
the claims exercise and are mapped to `none` (JS `NaN` also decodes to
`null` downstream, so the restriction only narrows the "numeric-like"
side). -/
def jsDecimalOfString (s : String) : Option Rat :=
  let (sign, rest) :=
    match s.data with
    | '-' :: r => ((-1 : Int), r)
    | '+' :: r => ((1 : Int), r)
    | r => ((1 : Int), r)
  let intPart := rest.takeWhile Char.isDigit
  let rest2 := rest.drop intPart.length
  match rest2 with
  | [] =>
    match digitsToNat? intPart with
    | some n => some ((sign * (n : Int) : Int) : Rat)
    | none => none
  | '.' :: fracChars =>
    if fracChars.all Char.isDigit then
      match intPart, fracChars with
      | [], [] => none
      | _, _ =>
        let ip := (digitsToNat? intPart).getD 0
        let fp := (digitsToNat? fracChars).getD 0
        some ((sign : Rat) * ((ip : Rat) + (fp : Rat) / ((10 : Rat) ^ fracChars.length)))
    else none
  | _ => none

/-- `toOptionalNumber` from `src/models/uploadModel.ts`: numbers pass
through, non-empty numeric strings are parsed, everything else (missing,
null, booleans, arrays, objects, non-numeric strings) resolves to `null`. -/
def toOptionalNumber (v : JsVal) : Option Rat :=
  match v with
  | .jnull => none
  | .undefVal => none
  | .num q => some q
  | .str s =>
    if jsTrim s ≠ "" then
      match jsDecimalOfString (jsTrim s) with
      | some n => some n
      | none => none
    else none
  | _ => none

/-- Decoded upload limits (`parseLimitsJson` output shape). -/
structure LimitsDecoded where
  maxStorageMbPerMonth : Option Rat
  maxImagesPerMonth : Option Rat
deriving DecidableEq

/-- `parseLimitsJson` from `src/models/uploadModel.ts`: a non-object (or
null/missing) document decodes to unbounded limits; otherwise each limit
field goes through `toOptionalNumber`. -/
def parseLimitsJson (v : JsVal) : LimitsDecoded :=
  match v with
  | .obj _ =>
    { maxStorageMbPerMonth := toOptionalNumber (getField v "max_storage_mb")
      maxImagesPerMonth := toOptionalNumber (getField v "max_images_month") }
  | .arr _ =>
    { maxStorageMbPerMonth := toOptionalNumber (getField v "max_storage_mb")
      maxImagesPerMonth := toOptionalNumber (getField v "max_images_month") }
  | _ => { maxStorageMbPerMonth := none, maxImagesPerMonth := none }

/-- `toOptionalBoolean` from the subscription feature model: booleans pass
through, the strings "true"/"false" (case-insensitive, trimmed) are
accepted, everything else resolves to `null` ("unknown"). -/
def toOptionalBoolean (v : JsVal) : Option Bool :=
  match v with
  | .jnull => none
  | .undefVal => none
  | .bool b => some b
  | .str s =>
    if jsToLower (jsTrim s) = "true" then some true
    else if jsToLower (jsTrim s) = "false" then some false
    else none
  | _ => none

/-- Decoded plan feature flags (`UserPlanFeatures`). -/
structure UserPlanFeatures where
  watermark : Option Bool
  aiEnhancement : Option Bool
deriving DecidableEq

/-- `parseFeaturesJson` from the subscription feature model. -/
def parseFeaturesJson (v : JsVal) : UserPlanFeatures :=
  match v with
  | .obj _ =>
    { watermark := toOptionalBoolean (getField v "watermark")
      aiEnhancement := toOptionalBoolean (getField v "ai_enhancement") }
  | .arr _ =>
    { watermark := toOptionalBoolean (getField v "watermark")
      aiEnhancement := toOptionalBoolean (getField v "ai_enhancement") }
  | _ => { watermark := none, aiEnhancement := none }

/-! ## Calendar dates (server local time)

The quota accountant and the subscription assignment work with JavaScript
`Date` values in server local time.  The claims compare instants only at
day granularity (month-window membership, "now"), so a date is modelled as
a year/month/day triple with JavaScript's 0-based months and the usual
`Date` normalisation of out-of-range fields. -/

/-- A JS `Date` at day granularity, months 0-based as in JavaScript. -/
structure LocalDate where
  year : Int
  month : Int
  day : Int
deriving DecidableEq

/-- Chronological (lexicographic) comparison of dates. -/
def LocalDate.le (a b : LocalDate) : Bool :=
  a.year < b.year ||
    (a.year == b.year &&
      (a.month < b.month || (a.month == b.month && a.day ≤ b.day)))

def LocalDate.lt (a b : LocalDate) : Bool := a.le b && a != b

def isLeapYear (y : Int) : Bool :=
  (y % 4 == 0 && y % 100 != 0) || y % 400 == 0

/-- Days in a (0-based) month, as JS `Date` normalisation uses. -/
def daysInMonth (y m : Int) : Int :=
  if m == 1 then (if isLeapYear y then 29 else 28)
  else if m == 3 || m == 5 || m == 8 || m == 10 then 30
  else 31

/-- Fold an out-of-range month into the year, as `new Date(y, m, d)` does.
(The code only ever produces months in `[0, 12]`.) -/
def normMonth (y m : Int) : Int × Int :=
  if m ≥ 12 then (y + 1, m - 12) else (y, m)

/-- One step of day-overflow normalisation. -/
def carryDay (y m d : Int) : Int × Int × Int :=
  if d > daysInMonth y m then
    let (y2, m2) := normMonth y (m + 1)
    (y2, m2, d - daysInMonth y m)
  else (y, m, d)

/-- JS `Date` field normalisation for the inputs the code can produce
(`month ∈ [0,12]`, day overflow of at most a few weeks, so two carries
suffice). -/
def mkDate (y m d : Int) : LocalDate :=
  let (y1, m1) := normMonth y m
  let (y2, m2, d2) := carryDay y1 m1 d
  let (y3, m3, d3) := carryDay y2 m2 d2
  ⟨y3, m3, d3⟩

/-- `new Date(now.getFullYear(), now.getMonth(), 1)` — the start of the
current accounting window (`getUserCurrentMonthUsage`). -/
def monthStart (now : LocalDate) : LocalDate := ⟨now.year, now.month, 1⟩

/-- `new Date(now.getFullYear(), now.getMonth() + 1, 1)` — the exclusive end
of the current accounting window. -/
def nextMonthStart (now : LocalDate) : LocalDate := mkDate now.year (now.month + 1) 1

/-- `addPeriod` from the subscription model: advance a date by one billing
period, with JS `Date` normalisation. -/
def addPeriod (input : LocalDate) (period : String) : LocalDate :=
  match period with
  | "daily" => mkDate input.year input.month (input.day + 1)
  | "weekly" => mkDate input.year input.month (input.day + 7)
  | "yearly" => mkDate (input.year + 1) input.month input.day
  | "annual" => mkDate (input.year + 1) input.month input.day
  | _ => mkDate input.year (input.month + 1) input.day

/-! ## Database rows

Identifiers are modelled as naturals (the code uses UUIDs and serial
integers; the claims only need identifiers to be orderable and comparable).
Timestamps in the version chain are opaque naturals. -/

/-- An `Image` row (resource). -/
structure ImageRow where
  id : Nat
  userId : Nat
  originalUrl : String
  sizeBytes : Int
  createdAt : LocalDate
deriving DecidableEq

/-- An `ImageVersion` row. -/
structure VersionRow where
  id : Nat
  imageId : Nat
  editedUrl : String
  metadata : JsVal
  createdAt : Nat

/-- An `ImageFilter` row (filter link), composite key
`(imageVersionId, filterId)`. -/
structure FilterLinkRow where
  imageVersionId : Nat
  filterId : Int
  intensity : Int
  sortOrder : Int
  appliedAt : Nat
deriving DecidableEq

/-- An `ImageVersionWatermark` row (watermark placement). -/
structure WatermarkLinkRow where
  id : Nat
  imageVersionId : Nat
  watermarkId : Option Int
  text : String
  position : String
  opacity : Rat
  font : String
  sortOrder : Int
  appliedAt : Nat
deriving DecidableEq

/-- A `Watermark` preset row. -/
structure WatermarkPresetRow where
  id : Int
  userId : Nat
  presetName : String
  text : String
  position : String
  opacity : Rat
  font : Option String
deriving DecidableEq

/-- A `Filter` row. -/
structure FilterRow where
  id : Int
  name : String
deriving DecidableEq

/-- A `SubscriptionPlan` row.  `limitsJson` and `featuresJson` are the
semi-structured configuration documents. -/
structure PlanRow where
  id : Int
  name : String
  period : String
  limitsJson : JsVal
  featuresJson : JsVal

/-- A `Subscription` row. -/
structure SubscriptionRow where
  id : Nat
  userId : Nat
  planId : Int
  status : String
  createdAt : LocalDate
  currentPeriodStart : LocalDate
  currentPeriodEnd : LocalDate
deriving DecidableEq

/-- The backing store.  Row lists are kept in insertion order; `nextId` is
the fresh-identifier source shared by all generated keys. -/
structure DB where
  userProfiles : List Nat
  images : List ImageRow
  versions : List VersionRow
  filterLinks : List FilterLinkRow
  watermarkLinks : List WatermarkLinkRow
  watermarkPresets : List WatermarkPresetRow
  filters : List FilterRow
  plans : List PlanRow
  subscriptions : List SubscriptionRow
  planFilters : List (Int × Int)
  nextId : Nat

/-- `findFirst` with an ordering: the leftmost row among those that no other
row strictly precedes, i.e. the head of a stable sort of the row list by the
requested `orderBy` keys.  `before a b` must hold exactly when `a` sorts
strictly before `b`. -/
def selectTop (before : α → α → Bool) : List α → Option α
  | [] => none
  | x :: xs =>
    match selectTop before xs with
    | none => some x
    | some y => if before y x then some y else some x

/-- Strict "sorts before" for `orderBy: [{ createdAt: "desc" }, { id: "desc" }]`
on versions — the §3 total order, newest first. -/
def versionBeforeFull (a b : VersionRow) : Bool :=
  b.createdAt < a.createdAt || (a.createdAt == b.createdAt && b.id < a.id)

/-- Strict "sorts before" for `orderBy: { createdAt: "desc" }` alone, as the
watermark model uses: ties on `createdAt` are unordered, so the stable model
keeps whichever row comes first in the table. -/
def versionBeforeCreatedAt (a b : VersionRow) : Bool :=
  b.createdAt < a.createdAt

/-- Strict "sorts before" for
`orderBy: [{ createdAt: "desc" }, { id: "desc" }]` on subscriptions. -/
def subBefore (a b : SubscriptionRow) : Bool :=
  LocalDate.lt b.createdAt a.createdAt ||
    (a.createdAt == b.createdAt && b.id < a.id)

/-- `prisma.subscription.findFirst({ where: { userId, status: "active" },
orderBy: [{ createdAt: "desc" }, { id: "desc" }] })` — shared by the
entitlement lookups. -/
def findActiveSubscription (db : DB) (userId : Nat) : Option SubscriptionRow :=
  selectTop subBefore
    (db.subscriptions.filter (fun s => s.userId == userId && s.status == "active"))

/-! ## Entitlement resolver -/

/-- Result of `getUserPlanFeatures`. -/
inductive PlanFeaturesResult where
  | noActiveSubscription
  | ok (planId : Int) (planName : String) (features : UserPlanFeatures)
deriving DecidableEq

/-- `getUserPlanFeatures` from the subscription feature model: resolve the
active subscription's plan and decode its `featuresJson`. -/
def getUserPlanFeatures (db : DB) (userId : Nat) : PlanFeaturesResult :=
  match findActiveSubscription db userId with
  | none => .noActiveSubscription
  | some sub =>
    match db.plans.find? (fun p => p.id == sub.planId) with
    | none => .noActiveSubscription
    | some plan => .ok plan.id plan.name (parseFeaturesJson plan.featuresJson)

/-- Decoded upload limits for a user (`UserUploadLimits`). -/
structure UserUploadLimits where
  planId : Int
  planName : String
  maxImagesPerMonth : Option Rat
  maxStorageMbPerMonth : Option Rat
deriving DecidableEq

/-- `getUserUploadLimits` from `src/models/uploadModel.ts`. -/
def getUserUploadLimits (db : DB) (userId : Nat) : Option UserUploadLimits :=
  match findActiveSubscription db userId with
  | none => none
  | some sub =>
    match db.plans.find? (fun p => p.id == sub.planId) with
    | none => none
    | some plan =>
      let parsed := parseLimitsJson plan.limitsJson
      some ⟨plan.id, plan.name, parsed.maxImagesPerMonth, parsed.maxStorageMbPerMonth⟩

/-- `canUserUseFilter` from `src/models/filterModel.ts`. -/
inductive FilterAccess where
  | noActiveSubscription
  | notAllowed
  | allowed
deriving DecidableEq

def canUserUseFilter (db : DB) (userId : Nat) (filterId : Int) : FilterAccess :=
  match findActiveSubscription db userId with
  | none => .noActiveSubscription
  | some sub =>
    if db.planFilters.any (fun pf => pf.1 == sub.planId && pf.2 == filterId) then
      .allowed
    else .notAllowed

/-! ## Quota accountant -/

/-- Output of `getUserCurrentMonthUsage`. -/
structure MonthUsage where
  winStart : LocalDate
  winEnd : LocalDate
  imageCount : Nat
  storageBytes : Int
deriving DecidableEq

/-- The user's images created inside the current accounting window
`[monthStart now, nextMonthStart now)`. -/
def imagesInWindow (db : DB) (userId : Nat) (now : LocalDate) : List ImageRow :=
  db.images.filter (fun i =>
    i.userId == userId &&
      (monthStart now).le i.createdAt && i.createdAt.lt (nextMonthStart now))

/-- `getUserCurrentMonthUsage` from `src/models/uploadModel.ts`: count and
byte volume of the user's images created in the current calendar-month
window, evaluated in server local time. -/
def getUserCurrentMonthUsage (db : DB) (userId : Nat) (now : LocalDate) : MonthUsage :=
  let rows := imagesInWindow db userId now
  ⟨monthStart now, nextMonthStart now, rows.length, (rows.map (·.sizeBytes)).sum⟩

/-- Responses of the upload handler (quota path). -/
inductive UploadResp where
  | userNotFound
  | noActivePlan
  | quotaImagesExceeded (planName : String)
  | quotaStorageExceeded (planName : String)
  | created (image : ImageRow)
deriving DecidableEq

/-- The entitlement/quota gate and resource creation of `uploadImageHandler`
(`src/controllers/uploadController.ts`), after request-shape validation:
resolve limits, compare usage against them, and create the `Image` row if
allowed. -/
def uploadImageHandler (db : DB) (userId : Nat) (fileSize : Int)
    (originalUrl : String) (now : LocalDate) : UploadResp × DB :=
  if userId ∈ db.userProfiles then
    match getUserUploadLimits db userId with
    | none => (.noActivePlan, db)
    | some limits =>
      let usage := getUserCurrentMonthUsage db userId now
      if (match limits.maxImagesPerMonth with
          | some l => ((usage.imageCount : Int) + 1 > l.floor : Bool)
          | none => false) then
        (.quotaImagesExceeded limits.planName, db)
      else if (match limits.maxStorageMbPerMonth with
          | some l => (usage.storageBytes + fileSize > l.floor * 1024 * 1024 : Bool)
          | none => false) then
        (.quotaStorageExceeded limits.planName, db)
      else
        let image : ImageRow := ⟨db.nextId, userId, originalUrl, fileSize, now⟩
        (.created image,
          { db with images := db.images ++ [image], nextId := db.nextId + 1 })
  else (.userNotFound, db)

/-! ## Plan assignment -/

/-- Result of `setUserActivePlan`. -/
inductive SetPlanResult where
  | userNotFound
  | planNotFound
  | ok (subscription : SubscriptionRow)
deriving DecidableEq

/-- `setUserActivePlan` from the subscription model: one transaction that
cancels every currently-active subscription of the user (setting its period
end to now) and then creates the new active subscription. -/
def setUserActivePlan (db : DB) (userId : Nat) (planId : Int)
    (now : LocalDate) : SetPlanResult × DB :=
  if userId ∈ db.userProfiles then
    match db.plans.find? (fun p => p.id == planId) with
    | none => (.planNotFound, db)
    | some plan =>
      let cancelled := db.subscriptions.map (fun s =>
        if s.userId == userId && s.status == "active" then
          { s with status := "cancelled", currentPeriodEnd := now }
        else s)
      let created : SubscriptionRow :=
        ⟨db.nextId, userId, planId, "active", now, now, addPeriod now plan.period⟩
      (.ok created,
        { db with subscriptions := cancelled ++ [created], nextId := db.nextId + 1 })
  else (.userNotFound, db)

/-! ## Version chain manager -/

/-- The `imageVersion` relation of a link row: the image that owns the
version the link points at. -/
def versionImageId (versions : List VersionRow) (vid : Nat) : Option Nat :=
  (versions.find? (fun v => v.id == vid)).map (·.imageId)

/-- Stable insertion of `x` into a sorted list: `x` goes before the first
element it may precede (`le x y`), so equal keys keep their relative
order. -/
def insertBy (le : α → α → Bool) (x : α) : List α → List α
  | [] => [x]
  | y :: ys => if le x y then x :: y :: ys else y :: insertBy le x ys

/-- Stable sort by a non-strict "may come before" predicate — the model of a
SQL `ORDER BY` over the insertion-ordered row list. -/
def sortRowsBy (le : α → α → Bool) (l : List α) : List α :=
  l.foldr (insertBy le) []

/-- `orderBy: [{ appliedAt: "asc" }, { filterId: "asc" }]` on filter links. -/
def filterLinkLe (a b : FilterLinkRow) : Bool :=
  a.appliedAt < b.appliedAt || (a.appliedAt == b.appliedAt && a.filterId ≤ b.filterId)

/-- `orderBy: [{ sortOrder: "asc" }, { id: "asc" }]` on watermark links. -/
def wmLinkLe (a b : WatermarkLinkRow) : Bool :=
  a.sortOrder < b.sortOrder || (a.sortOrder == b.sortOrder && a.id ≤ b.id)

/-- Result of `applyFiltersToImage`. -/
structure FilterApplyOut where
  version : VersionRow
  links : List FilterLinkRow

/-- `applyFiltersToImage` from `src/models/filterModel.ts`: one transaction
that creates the new version, inserts the requested stack as that version's
links (sort order = request position), prunes every filter link of this
image that is not on the new version, and returns the fresh links. -/
def applyFiltersToImage (db : DB) (imageId : Nat) (stack : List (Int × Int))
    (editedUrl : String) (metadata : JsVal) (now : Nat) : FilterApplyOut × DB :=
  let version : VersionRow := ⟨db.nextId, imageId, editedUrl, metadata, now⟩
  let versions2 := db.versions ++ [version]
  let newLinks := stack.enum.map (fun p =>
    (⟨version.id, p.2.1, p.2.2, (p.1 : Int), now⟩ : FilterLinkRow))
  let afterInsert := db.filterLinks ++ newLinks
  let afterPrune := afterInsert.filter (fun l =>
    ! (l.imageVersionId != version.id &&
        versionImageId versions2 l.imageVersionId == some imageId))
  let links := sortRowsBy filterLinkLe
    (afterPrune.filter (fun l => l.imageVersionId == version.id))
  (⟨version, links⟩,
    { db with versions := versions2, filterLinks := afterPrune, nextId := db.nextId + 1 })

/-- Result of `applyWatermarkToImage`; the thrown `NOT_FOUND` /
`INVALID_WATERMARK` errors abort the transaction. -/
inductive WatermarkApplyResp where
  | notFound
  | invalidWatermark
  | ok (version : VersionRow) (placement : WatermarkLinkRow)

/-- The `previous` read of `applyWatermarkToImage`: the placements of the
latest version selected by `orderBy: { createdAt: "desc" }`, ordered by
`(sortOrder, id)`; empty when the resource has no version yet. -/
def wmPrevious (db : DB) (imageId : Nat) : List WatermarkLinkRow :=
  match selectTop versionBeforeCreatedAt
      (db.versions.filter (fun v => v.imageId == imageId)) with
  | some lv => sortRowsBy wmLinkLe
      (db.watermarkLinks.filter (fun l => l.imageVersionId == lv.id))
  | none => []

/-- `previous.reduce((acc, p) => Math.max(acc, p.sortOrder), -1)`; the
`typeof p.sortOrder === "number"` guard is vacuous here since the embedded
sort order is always a number. -/
def wmMaxSort (previous : List WatermarkLinkRow) : Int :=
  previous.foldl (fun acc p => max acc p.sortOrder) (-1)

/-- The metadata document `applyWatermarkToImage` stores with the new
version. -/
def wmMetadata (previous : List WatermarkLinkRow) (watermarkId : Int) : JsVal :=
  .obj [("watermarkId", .num (watermarkId : Rat)),
        ("watermarkIds", .arr
          ((previous.filterMap (fun p => p.watermarkId.map (fun i => JsVal.num (i : Rat)))) ++
            [.num (watermarkId : Rat)]))]

/-- The carried-forward copies of the previous placements, re-keyed onto
the new version (same watermark id, text, position, opacity, font and sort
order). -/
def wmCarried (previous : List WatermarkLinkRow) (newVid : Nat) (baseId : Nat)
    (now : Nat) : List WatermarkLinkRow :=
  previous.enum.map (fun p =>
    { p.2 with id := baseId + p.1, imageVersionId := newVid, appliedAt := now })

/-- `applyWatermarkToImage` from `src/models/watermarkModel.ts`: resolve the
preset (empty/whitespace text rejected), read the latest version by
`orderBy: { createdAt: "desc" }`, copy its placements onto a fresh version,
append one new placement at `max(existing sortOrder) + 1` (starting from
`-1 + 1 = 0`), then prune placements of this image on other versions. -/
def applyWatermarkToImage (db : DB) (imageId : Nat) (watermarkId : Int)
    (editedUrl : String) (now : Nat) : WatermarkApplyResp × DB :=
  match db.watermarkPresets.find? (fun w => w.id == watermarkId) with
  | none => (.notFound, db)
  | some watermark =>
    if jsTrim watermark.text == "" then (.invalidWatermark, db)
    else
      let previous := wmPrevious db imageId
      let version : VersionRow :=
        ⟨db.nextId, imageId, editedUrl, wmMetadata previous watermarkId, now⟩
      let versions2 := db.versions ++ [version]
      let carried := wmCarried previous version.id (db.nextId + 1) now
      let placement : WatermarkLinkRow :=
        ⟨db.nextId + 1 + previous.length, version.id, some watermark.id, watermark.text,
          watermark.position, watermark.opacity, watermark.font.getD "Inter",
          wmMaxSort previous + 1, now⟩
      let afterInsert := db.watermarkLinks ++ (carried ++ [placement])
      let afterPrune := afterInsert.filter (fun l =>
        ! (l.imageVersionId != version.id &&
            versionImageId versions2 l.imageVersionId == some imageId))
      (.ok version placement,
        { db with versions := versions2, watermarkLinks := afterPrune,
                  nextId := db.nextId + 2 + previous.length })

/-- `getLatestFiltersForImage`: latest version by
`orderBy: [{ createdAt: "desc" }, { id: "desc" }]`, then its filter links. -/
def getLatestFiltersForImage (db : DB) (imageId : Nat) : List FilterLinkRow :=
  match selectTop versionBeforeFull (db.versions.filter (fun v => v.imageId == imageId)) with
  | none => []
  | some lv => sortRowsBy filterLinkLe
      (db.filterLinks.filter (fun l => l.imageVersionId == lv.id))

/-- `getLatestWatermarksForImage`: latest version by
`orderBy: { createdAt: "desc" }` only, then its placements. -/
def getLatestWatermarksForImage (db : DB) (imageId : Nat) : List WatermarkLinkRow :=
  match selectTop versionBeforeCreatedAt (db.versions.filter (fun v => v.imageId == imageId)) with
  | none => []
  | some lv => sortRowsBy wmLinkLe
      (db.watermarkLinks.filter (fun l => l.imageVersionId == lv.id))

/-- The latest-version reads of `src/models/filterModel.ts`
(`getLatestFiltersForImage`, `deleteLatestFilterFromImage`). -/
def latestVersionFilterSide (db : DB) (imageId : Nat) : Option VersionRow :=
  selectTop versionBeforeFull (db.versions.filter (fun v => v.imageId == imageId))

/-- The latest-version reads of `src/models/watermarkModel.ts`
(`applyWatermarkToImage`, `getLatestWatermarksForImage`). -/
def latestVersionWatermarkSide (db : DB) (imageId : Nat) : Option VersionRow :=
  selectTop versionBeforeCreatedAt (db.versions.filter (fun v => v.imageId == imageId))

/-- `deleteLatestFilterFromImage`: find the latest version (full order),
delete its link for `filterId` if present, and best-effort rewrite the
latest version's `metadata.filters` / `metadata.filterIds` without the
removed filter.  Returns the `(imageVersionId, filterId)` of the deleted
row, or `none` (`NotFound`) with the store untouched. -/
def deleteLatestFilterFromImage (db : DB) (imageId : Nat) (filterId : Int) :
    Option (Nat × Int) × DB :=
  match latestVersionFilterSide db imageId with
  | none => (none, db)
  | some latestVersion =>
    match db.filterLinks.find? (fun l =>
        l.imageVersionId == latestVersion.id && l.filterId == filterId) with
    | none => (none, db)
    | some latest =>
      let filterLinks2 := db.filterLinks.filter (fun l =>
        ! (l.imageVersionId == latest.imageVersionId && l.filterId == latest.filterId))
      let md := latestVersion.metadata
      let versions2 :=
        match md with
        | .obj fields =>
          if fields.any (fun f => f.1 == "filters") then
            match getField md "filters" with
            | .arr fs =>
              let nextFilters := fs.filter (fun f =>
                match getField f "filterId" with
                | .num q => (q ≠ (filterId : Rat) : Bool)
                | _ => true)
              let nextIds := nextFilters.filterMap (fun f =>
                match getField f "filterId" with
                | .num q => some (JsVal.num q)
                | _ => none)
              let newMd := setField (setField md "filters" (.arr nextFilters))
                "filterIds" (.arr nextIds)
              db.versions.map (fun v =>
                if v.id == latestVersion.id then { v with metadata := newMd } else v)
            | _ => db.versions
          else db.versions
        | _ => db.versions
      (some (latest.imageVersionId, latest.filterId),
        { db with filterLinks := filterLinks2, versions := versions2 })

/-- `deleteLatestWatermarkFromImage`: find the placement for `watermarkId`
on any of this image's versions with the greatest `appliedAt`
(`orderBy: { appliedAt: "desc" }`), and delete it by id; no version row is
touched. -/
def deleteLatestWatermarkFromImage (db : DB) (imageId : Nat) (watermarkId : Int) :
    Option Nat × DB :=
  let candidates := db.watermarkLinks.filter (fun l =>
    l.watermarkId == some watermarkId &&
      versionImageId db.versions l.imageVersionId == some imageId)
  match selectTop (fun a b => b.appliedAt < a.appliedAt) candidates with
  | none => (none, db)
  | some latest =>
    (some latest.id,
      { db with watermarkLinks := db.watermarkLinks.filter (fun l => l.id != latest.id) })

/-! ## Filter controller: request normalisation and validation
(`src/controllers/filterController.ts`) -/

/-- Element loop shared by the array branches of `normalizeFilterIds` and
`normalizeIntensities`: every element must be an integer number. -/
def normalizeIntList : List JsVal → Option (List Int)
  | [] => some []
  | .num q :: rest =>
    if q.den == 1 then (normalizeIntList rest).map (q.num :: ·) else none
  | _ => none

/-- `normalizeFilterIds`: a single integer becomes a one-element list; a
non-empty all-integer array passes through; anything else is rejected. -/
def normalizeFilterIds (v : JsVal) : Option (List Int) :=
  match v with
  | .num q => if q.den == 1 then some [q.num] else none
  | .arr items => if items.length == 0 then none else normalizeIntList items
  | _ => none

/-- `normalizeIntensities`: omitted means `100` for every entry, an integer
scalar broadcasts, an array must match the id count elementwise. -/
def normalizeIntensities (v : JsVal) (count : Nat) : Option (List Int) :=
  match v with
  | .undefVal => some (List.replicate count 100)
  | .num q => if q.den == 1 then some (List.replicate count q.num) else none
  | .arr items =>
    if items.length != count then none else normalizeIntList items
  | _ => none

/-- Element loop of `normalizeFilterStack`: each entry must be an object
whose `filterId` is an integer and whose `intensity` is absent or an
integer. -/
def normalizeStackItems : List JsVal → Option (List (Int × Option Int))
  | [] => some []
  | item :: rest =>
    match item with
    | .obj _ | .arr _ =>
      match getField item "filterId" with
      | .num q =>
        if q.den == 1 then
          match getField item "intensity" with
          | .undefVal => (normalizeStackItems rest).map ((q.num, none) :: ·)
          | .num i =>
            if i.den == 1 then (normalizeStackItems rest).map ((q.num, some i.num) :: ·)
            else none
          | _ => none
        else none
      | _ => none
    | _ => none

/-- `normalizeFilterStack` (deprecated `filters: [{filterId, intensity?}]`
shape). -/
def normalizeFilterStack (v : JsVal) : Option (List (Int × Option Int)) :=
  match v with
  | .arr items => normalizeStackItems items
  | _ => none

/-- The stack-building prefix of `applyFilterHandler` (lines 114–142): try
the preferred `filterId`/`intensity` shape, fall back to the legacy
`filters` array, defaulting omitted intensities to 100; `none` is the 400
"filterId … is required" response. -/
def buildStack (body : JsVal) : Option (List (Int × Int)) :=
  let nIds := normalizeFilterIds (getField body "filterId")
  let nInts := normalizeIntensities (getField body "intensity")
    (match nIds with | some l => l.length | none => 0)
  match nIds, nInts with
  | some ids, some ints =>
    some (ids.enum.map (fun p => (p.2, ints.getD p.1 100)))
  | _, _ =>
    match normalizeFilterStack (getField body "filters") with
    | none => none
    | some parsed =>
      if parsed.length == 0 then none
      else some (parsed.map (fun f => (f.1, f.2.getD 100)))

/-- The two 400-class validation failures of the stack loop. -/
inductive StackError where
  | invalidIntensity
  | duplicateFilter
deriving DecidableEq

/-- The validation loop of `applyFilterHandler` (lines 144–156): per item,
first the `isIntegerBetween(intensity, 0, 100)` check, then the seen-set
uniqueness check. -/
def validateStackLoop : List (Int × Int) → List Int → Option StackError
  | [], _ => none
  | (fid, inten) :: rest, seen =>
    if ¬ (0 ≤ inten ∧ inten ≤ 100) then some .invalidIntensity
    else if fid ∈ seen then some .duplicateFilter
    else validateStackLoop rest (fid :: seen)

def validateStack (stack : List (Int × Int)) : Option StackError :=
  validateStackLoop stack []

/-- Responses of `applyFilterHandler`. -/
inductive FilterHandlerResp where
  | invalidInput (msg : String)
  | imageNotFound
  | filterNotFound
  | noActiveSubscription
  | notAllowed
  | created (version : VersionRow) (links : List FilterLinkRow)

/-- The `metadata` document the handler stores with the new version: the
requested ids plus the full post-edit stack snapshot. -/
def filterStackMetadata (stack : List (Int × Int)) : JsVal :=
  .obj [("filterIds", .arr (stack.map (fun s => .num (s.1 : Rat)))),
        ("filters", .arr (stack.enum.map (fun p => JsVal.obj
          [("filterId", .num (p.2.1 : Rat)),
           ("intensity", .num (p.2.2 : Rat)),
           ("sortOrder", .num (p.1 : Rat))])))]

/-- `applyFilterHandler`: normalise, validate, resolve the image, check all
filters exist and are allowed by the owner's plan, then run
`applyFiltersToImage`.  Every early exit leaves the store untouched. -/
def applyFilterHandler (db : DB) (imageId : Nat) (body : JsVal) (now : Nat) :
    FilterHandlerResp × DB :=
  match buildStack body with
  | none => (.invalidInput "filterId (integer or integer[]) is required", db)
  | some stack =>
    match validateStack stack with
    | some .invalidIntensity =>
      (.invalidInput "intensity must be an integer between 0 and 100", db)
    | some .duplicateFilter =>
      (.invalidInput "filters must be unique by filterId", db)
    | none =>
      match db.images.find? (fun i => i.id == imageId) with
      | none => (.imageNotFound, db)
      | some image =>
        if ¬ (stack.all (fun s => db.filters.any (fun f => f.id == s.1))) then
          (.filterNotFound, db)
        else if stack.any (fun s =>
            canUserUseFilter db image.userId s.1 == .noActiveSubscription) then
          (.noActiveSubscription, db)
        else if stack.any (fun s =>
            canUserUseFilter db image.userId s.1 == .notAllowed) then
          (.notAllowed, db)
        else
          let out := applyFiltersToImage db image.id stack image.originalUrl
            (filterStackMetadata stack) now
          (.created out.1.version out.1.links, out.2)

/-- Responses of `applyWatermarksHandler`. -/
inductive WatermarkHandlerResp where
  | invalidInput
  | imageNotFound
  | noActiveSubscription
  | notAllowed
  | watermarkNotFound
  | invalidWatermark
  | created (version : VersionRow) (placement : WatermarkLinkRow)

/-- `applyWatermarksHandler` from `src/controllers/watermarkController.ts`:
integer body check, image lookup, plan-feature gate (`watermark !== true`
rejects), preset pre-check, then `applyWatermarkToImage`. -/
def applyWatermarksHandler (db : DB) (imageId : Nat) (body : JsVal) (now : Nat) :
    WatermarkHandlerResp × DB :=
  match getField body "watermarkId" with
  | .num q =>
    if q.den == 1 then
      let watermarkId := q.num
      match db.images.find? (fun i => i.id == imageId) with
      | none => (.imageNotFound, db)
      | some image =>
        match getUserPlanFeatures db image.userId with
        | .noActiveSubscription => (.noActiveSubscription, db)
        | .ok _ _ features =>
          if features.watermark ≠ some true then (.notAllowed, db)
          else
            match db.watermarkPresets.find? (fun w => w.id == watermarkId) with
            | none => (.watermarkNotFound, db)
            | some _ =>
              match applyWatermarkToImage db image.id watermarkId image.originalUrl now with
              | (.notFound, db2) => (.watermarkNotFound, db2)
              | (.invalidWatermark, db2) => (.invalidWatermark, db2)
              | (.ok v pl, db2) => (.created v pl, db2)
    else (.invalidInput, db)
  | _ => (.invalidInput, db)

/-! ## Specification-side notions (§3 of the spec) -/

/-- The §3 strict total order on a resource's versions: creation timestamp,
ties broken by identifier. -/
def versionLtSpec (a b : VersionRow) : Prop :=
  a.createdAt < b.createdAt ∨ (a.createdAt = b.createdAt ∧ a.id < b.id)

/-- "`v` is the latest version of the resource" in the sense of §3: it
belongs to the resource and strictly dominates every other of its
versions. -/
def IsLatestVersion (db : DB) (imageId : Nat) (v : VersionRow) : Prop :=
  v ∈ db.versions ∧ v.imageId = imageId ∧
    ∀ w ∈ db.versions, w.imageId = imageId → w.id ≠ v.id → versionLtSpec w v

/-- Baseline store well-formedness: generated keys are below the fresh-id
counter and unique, links reference existing versions, the filter links
respect the `(imageVersionId, filterId)` composite-unique constraint, and
placements carry the non-negative sort orders the engine produces. -/
def DB.Wf (db : DB) : Prop :=
  (∀ v ∈ db.versions, v.id < db.nextId) ∧
  db.versions.Pairwise (fun a b => a.id ≠ b.id) ∧
  (∀ l ∈ db.filterLinks, ∃ v ∈ db.versions, v.id = l.imageVersionId) ∧
  (∀ l ∈ db.watermarkLinks, ∃ v ∈ db.versions, v.id = l.imageVersionId) ∧
  (∀ l ∈ db.watermarkLinks, l.id < db.nextId) ∧
  db.watermarkLinks.Pairwise (fun a b => a.id ≠ b.id) ∧
  db.filterLinks.Pairwise (fun a b =>
    ¬(a.imageVersionId = b.imageVersionId ∧ a.filterId = b.filterId)) ∧
  (∀ l ∈ db.watermarkLinks, 0 ≤ l.sortOrder)

instance (db : DB) : Decidable db.Wf := by
  unfold DB.Wf
  infer_instance

/-- The fields of a placement that "verbatim copy" preserves (everything
except the generated key, the owning version and the applied timestamp). -/
def wmProj (l : WatermarkLinkRow) : Option Int × String × String × Rat × String × Int :=
  (l.watermarkId, l.text, l.position, l.opacity, l.font, l.sortOrder)

/-- The user's subscriptions with status "active". -/
def activeSubsFor (db : DB) (userId : Nat) : List SubscriptionRow :=
  db.subscriptions.filter (fun s => s.userId == userId && s.status == "active")

/-! ## Generic helper lemmas -/

theorem selectTop_mem {b : α → α → Bool} {l : List α} {x : α}
    (h : selectTop b l = some x) : x ∈ l := by
  induction l with
  | nil => simp [selectTop] at h
  | cons z zs ih =>
    simp only [selectTop] at h
    rcases hz : selectTop b zs with _ | y
    · rw [hz] at h
      simp_all
    · rw [hz] at h
      by_cases hby : b y z = true
      · simp [hby] at h
        subst h
        exact List.mem_cons_of_mem _ (ih hz)
      · simp [hby] at h
        subst h
        exact List.mem_cons_self _ _

theorem selectTop_none {b : α → α → Bool} {l : List α} :
    selectTop b l = none ↔ l = [] := by
  cases l with
  | nil => simp [selectTop]
  | cons z zs =>
    simp only [selectTop]
    cases hz : selectTop b zs with
    | none => simp
    | some y => cases hb : b y z <;> simp [hb]

/-- If `x` occurs in `l`, is never strictly preceded by itself or (in both
directions at once) by another element, and strictly precedes every other
element, then the stable top pick is `x`. -/
theorem selectTop_eq_of_top {b : α → α → Bool} {l : List α} {x : α}
    (hx : x ∈ l) (hirr : b x x = false)
    (hasym : ∀ y ∈ l, b x y = true → b y x = false)
    (htop : ∀ y ∈ l, y ≠ x → b x y = true) :
    selectTop b l = some x := by
  induction l with
  | nil => simp at hx
  | cons z zs ih =>
    rcases List.mem_cons.mp hx with hxz | hxs
    · subst hxz
      simp only [selectTop]
      rcases hz : selectTop b zs with _ | y
      · rfl
      · have hy : y ∈ zs := selectTop_mem hz
        by_cases hyx : y = x
        · subst hyx
          simp [hirr]
        · have h1 : b x y = true := htop y (List.mem_cons_of_mem _ hy) hyx
          have h2 : b y x = false := hasym y (List.mem_cons_of_mem _ hy) h1
          simp [h2]
    · have ihz : selectTop b zs = some x :=
        ih hxs (fun y hy => hasym y (List.mem_cons_of_mem _ hy))
          (fun y hy => htop y (List.mem_cons_of_mem _ hy))
      simp only [selectTop, ihz]
      by_cases hzx : z = x
      · rw [hzx]
        by_cases hb : b x x = true <;> simp [hb]
      · simp [htop z (List.mem_cons_self _ _) hzx]

theorem insertBy_perm (le : α → α → Bool) (x : α) (l : List α) :
    (insertBy le x l).Perm (x :: l) := by
  induction l with
  | nil => simp [insertBy]
  | cons y ys ih =>
    simp only [insertBy]
    by_cases h : le x y = true
    · simp [h]
    · simp only [h]
      exact (ih.cons y).trans (List.Perm.swap x y ys)

theorem sortRowsBy_perm (le : α → α → Bool) (l : List α) :
    (sortRowsBy le l).Perm l := by
  induction l with
  | nil => simp [sortRowsBy]
  | cons y ys ih =>
    simp only [sortRowsBy, List.foldr_cons]
    exact (insertBy_perm le y _).trans (ih.cons y)

/-! ## C10: plan assignment keeps at most one active subscription -/

/-- C10.  `setUserActivePlan` leaves the acted-on user with exactly the one
newly created subscription in status "active" (every previously active one
is cancelled with its period end set to now, inside the same transaction,
before the new row is created), leaves every other user's active set
untouched, and on failure (unknown user or plan) changes nothing — so an
entitlement lookup that selects an active subscription always has a unique
candidate for a user administered through this interface. -/
theorem setUserActivePlan_single_active (db : DB) (userId : Nat) (planId : Int)
    (now : LocalDate) :
    (∀ r db2, setUserActivePlan db userId planId now = (.ok r, db2) →
      activeSubsFor db2 userId = [r] ∧
      r.status = "active" ∧ r.userId = userId ∧ r.planId = planId ∧
      (∀ u, u ≠ userId → activeSubsFor db2 u = activeSubsFor db u)) ∧
    (∀ e db2, setUserActivePlan db userId planId now = (e, db2) →
      (∀ r, e ≠ SetPlanResult.ok r) → db2 = db) := by
  by_cases hu : userId ∈ db.userProfiles
  · rcases hp : db.plans.find? (fun p => p.id == planId) with _ | plan
    · refine ⟨fun r db2 h => ?_, fun e db2 h hne => ?_⟩
      · simp [setUserActivePlan, hu, hp] at h
      · simp only [setUserActivePlan, hu, if_true, hp, Prod.mk.injEq] at h
        exact h.2.symm
    · refine ⟨fun r db2 h => ?_, fun e db2 h hne => ?_⟩
      · simp only [setUserActivePlan, hu, if_true, hp, Prod.mk.injEq,
          SetPlanResult.ok.injEq] at h
        obtain ⟨hr, hdb⟩ := h
        subst hdb
        refine ⟨?_, by rw [← hr], by rw [← hr], by rw [← hr], ?_⟩
        · rw [← hr]
          simp only [activeSubsFor, List.filter_append]
          have h1 : (db.subscriptions.map (fun s =>
              if s.userId == userId && s.status == "active" then
                { s with status := "cancelled", currentPeriodEnd := now }
              else s)).filter
                (fun s => s.userId == userId && s.status == "active") = [] := by
            rw [List.filter_map, List.filter_eq_nil_iff.mpr]
            · simp
            · intro s _
              simp only [Function.comp_apply]
              by_cases hc : (s.userId == userId && s.status == "active") = true
              · rw [if_pos hc]
                simp
              · rw [if_neg hc]
                simpa using hc
          rw [h1]
          simp
        · intro u hune
          have huneq : (userId == u) = false := by
            simp [Ne.symm hune]
          simp only [activeSubsFor, List.filter_append]
          have h2 : (List.filter (fun s => s.userId == u && s.status == "active")
              [(⟨db.nextId, userId, planId, "active", now, now,
                  addPeriod now plan.period⟩ : SubscriptionRow)]) = [] := by
            simp [huneq]
          rw [h2, List.append_nil, List.filter_map]
          have h3 : ∀ s ∈ db.subscriptions,
              ((fun s => s.userId == u && s.status == "active") ∘
                (fun s => if s.userId == userId && s.status == "active" then
                  { s with status := "cancelled", currentPeriodEnd := now }
                else s)) s =
              (fun s => s.userId == u && s.status == "active") s := by
            intro s _
            simp only [Function.comp_apply]
            by_cases hc : (s.userId == userId && s.status == "active") = true
            · rw [if_pos hc]
              have hsu : s.userId = userId := by
                have := (Bool.and_eq_true _ _ ▸ hc).1
                simpa using this
              have h5 : (s.userId == u) = false := by
                rw [hsu]
                exact huneq
              simp [h5]
            · rw [if_neg hc]
          rw [List.filter_congr h3]
          have h4 : ∀ s ∈ db.subscriptions.filter
              (fun s => s.userId == u && s.status == "active"),
              (fun s => if s.userId == userId && s.status == "active" then
                  ({ s with status := "cancelled", currentPeriodEnd := now }
                    : SubscriptionRow)
                else s) s = id s := by
            intro s hs
            simp only [List.mem_filter, Bool.and_eq_true, beq_iff_eq] at hs
            simp only [id]
            rw [if_neg]
            simp only [Bool.and_eq_true, beq_iff_eq, not_and]
            intro hsu
            exact absurd (hs.2.1 ▸ hsu : u = userId) hune
          rw [List.map_congr_left h4, List.map_id]
      · simp only [setUserActivePlan, hu, if_true, hp] at h
        exact absurd (congrArg Prod.fst h).symm (by simpa using hne _)
  · refine ⟨fun r db2 h => ?_, fun e db2 h hne => ?_⟩
    · simp [setUserActivePlan, hu] at h
    · simp only [setUserActivePlan, hu, if_false, Prod.mk.injEq] at h
      exact h.2.symm

/-- Concrete store for the C10 witness: user 1 with an old active
subscription to plan 4, and plan 5 available. -/
def c10db : DB :=
  { userProfiles := [1], images := [], versions := [], filterLinks := [],
    watermarkLinks := [], watermarkPresets := [], filters := [],
    plans := [⟨5, "basic", "monthly", .jnull, .jnull⟩],
    subscriptions := [⟨0, 1, 4, "active", ⟨2026, 0, 5⟩, ⟨2026, 0, 5⟩, ⟨2026, 1, 5⟩⟩],
    planFilters := [], nextId := 7 }

theorem setUserActivePlan_single_active_witness :
    ∃ r db2, setUserActivePlan c10db 1 5 ⟨2026, 9, 11⟩ = (SetPlanResult.ok r, db2) ∧
      activeSubsFor db2 1 = [r] ∧ activeSubsFor db2 2 = activeSubsFor c10db 2 := by
  refine ⟨_, _, rfl, ?_, ?_⟩
  · exact ((setUserActivePlan_single_active c10db 1 5 ⟨2026, 9, 11⟩).1 _ _ rfl).1
  · exact ((setUserActivePlan_single_active c10db 1 5 ⟨2026, 9, 11⟩).1 _ _ rfl).2.2.2.2
      2 (by decide)

/-! ## C6: plan-configuration decoding and the fail-closed feature gate -/

/-- C6.  The entitlement decoder resolves a missing or non-numeric limit
field to `null` (unbounded) while accepting numeric strings, resolves a
missing or non-boolean feature flag to `null` while accepting
"true"/"false" case-insensitively after trimming, and the watermark
mutation handler grants access only when the decoded flag is strictly
`true` — a `null` (unknown) flag is not granted. -/
theorem entitlement_decoder_fail_closed :
    (∀ fields, fields.find? (fun f => f.1 == "max_images_month") = none →
      (parseLimitsJson (.obj fields)).maxImagesPerMonth = none) ∧
    (∀ fields, (parseLimitsJson (.obj fields)).maxImagesPerMonth =
      toOptionalNumber (getField (.obj fields) "max_images_month")) ∧
    (∀ b, toOptionalNumber (.bool b) = none) ∧
    toOptionalNumber .jnull = none ∧ toOptionalNumber .undefVal = none ∧
    (∀ xs, toOptionalNumber (.arr xs) = none) ∧
    (∀ fs, toOptionalNumber (.obj fs) = none) ∧
    (∀ s, jsTrim s = "" → toOptionalNumber (.str s) = none) ∧
    (∀ s, jsDecimalOfString (jsTrim s) = none → toOptionalNumber (.str s) = none) ∧
    (∀ s q, jsTrim s ≠ "" → jsDecimalOfString (jsTrim s) = some q →
      toOptionalNumber (.str s) = some q) ∧
    (∀ fields, fields.find? (fun f => f.1 == "watermark") = none →
      (parseFeaturesJson (.obj fields)).watermark = none) ∧
    (∀ fields, (parseFeaturesJson (.obj fields)).watermark =
      toOptionalBoolean (getField (.obj fields) "watermark")) ∧
    (∀ q, toOptionalBoolean (.num q) = none) ∧
    toOptionalBoolean .jnull = none ∧ toOptionalBoolean .undefVal = none ∧
    (∀ xs, toOptionalBoolean (.arr xs) = none) ∧
    (∀ fs, toOptionalBoolean (.obj fs) = none) ∧
    (∀ b, toOptionalBoolean (.bool b) = some b) ∧
    (∀ s, jsToLower (jsTrim s) = "true" → toOptionalBoolean (.str s) = some true) ∧
    (∀ s, jsToLower (jsTrim s) = "false" → toOptionalBoolean (.str s) = some false) ∧
    (∀ s, jsToLower (jsTrim s) ≠ "true" → jsToLower (jsTrim s) ≠ "false" →
      toOptionalBoolean (.str s) = none) ∧
    (∀ db imageId body now v pl db2,
      applyWatermarksHandler db imageId body now = (.created v pl, db2) →
      ∃ img ∈ db.images, img.id = imageId ∧
        ∃ pid pname feats, getUserPlanFeatures db img.userId = .ok pid pname feats ∧
          feats.watermark = some true) := by
  refine ⟨?_, fun _ => rfl, fun _ => rfl, rfl, rfl, fun _ => rfl, fun _ => rfl,
    ?_, ?_, ?_, ?_, fun _ => rfl, fun _ => rfl, rfl, rfl, fun _ => rfl, fun _ => rfl,
    fun _ => rfl, ?_, ?_, ?_, ?_⟩
  · intro fields hf
    simp [parseLimitsJson, getField, hf, toOptionalNumber]
  · intro s hs
    simp [toOptionalNumber, hs]
  · intro s hs
    simp only [toOptionalNumber, hs]
    split <;> rfl
  · intro s q hne hq
    simp [toOptionalNumber, hne, hq]
  · intro fields hf
    simp [parseFeaturesJson, getField, hf, toOptionalBoolean]
  · intro s hs
    simp [toOptionalBoolean, hs]
  · intro s hs
    simp [toOptionalBoolean, hs]
  · intro s h1 h2
    simp [toOptionalBoolean, h1, h2]
  · intro db imageId body now v pl db2 h
    unfold applyWatermarksHandler at h
    rcases hb : getField body "watermarkId" with _ | _ | b | q | st | xs | fs <;>
      simp only [hb] at h
    case num =>
      by_cases hden : q.den = 1
      · rw [if_pos (by simp [hden])] at h
        rcases hi : db.images.find? (fun i => i.id == imageId) with _ | image <;>
          simp only [hi] at h
        · simp at h
        · rcases hpf : getUserPlanFeatures db image.userId with _ | ⟨pid, pname, feats⟩ <;>
            simp only [hpf] at h
          · simp at h
          · by_cases hwm : feats.watermark = some true
            · refine ⟨image, List.mem_of_find?_eq_some hi, ?_, pid, pname, feats, hpf, hwm⟩
              have hpred := List.find?_some hi
              simpa using hpred
            · rw [if_pos hwm] at h
              simp at h
      · rw [if_neg (by simp [hden])] at h
        simp at h
    all_goals simp at h

/-- Concrete store for the C6 witness: user 1 owns image 10 and has an
active plan whose features document grants the watermark flag. -/
def c6db : DB :=
  { userProfiles := [1],
    images := [⟨10, 1, "url", 0, ⟨2026, 0, 5⟩⟩],
    versions := [], filterLinks := [], watermarkLinks := [],
    watermarkPresets := [⟨3, 1, "preset", "TXT", "se", 1, some "Inter"⟩],
    filters := [],
    plans := [⟨5, "pro", "monthly", .jnull, .obj [("watermark", .bool true)]⟩],
    subscriptions := [⟨0, 1, 5, "active", ⟨2026, 0, 5⟩, ⟨2026, 0, 5⟩, ⟨2026, 1, 5⟩⟩],
    planFilters := [], nextId := 100 }

theorem entitlement_decoder_fail_closed_witness :
    toOptionalNumber (.str " 42 ") = some 42 ∧
    (parseLimitsJson (.obj [("max_storage_mb", .num 7)])).maxImagesPerMonth = none ∧
    toOptionalBoolean (.str " TRUE ") = some true ∧
    ∃ img ∈ c6db.images, img.id = 10 ∧
      ∃ pid pname feats, getUserPlanFeatures c6db img.userId = .ok pid pname feats ∧
        feats.watermark = some true := by
  obtain ⟨h1, _, _, _, _, _, _, _, _, h10, _, _, _, _, _, _, _, _, h19, _, _, h22⟩ :=
    entitlement_decoder_fail_closed
  refine ⟨h10 " 42 " 42 (by decide) (by decide), h1 _ (by rfl),
    h19 " TRUE " (by decide), ?_⟩
  exact h22 c6db 10 (.obj [("watermarkId", .num 3)]) 5 _ _ _ rfl

/-! ## C7: the monthly resource-count quota -/

theorem LocalDate.le_antisymm {a b : LocalDate} (h1 : a.le b = true)
    (h2 : b.le a = true) : a = b := by
  cases a with | mk ay am ad =>
  cases b with | mk by_ bm bd =>
  simp only [LocalDate.le, Bool.or_eq_true, Bool.and_eq_true, beq_iff_eq,
    decide_eq_true_eq] at h1 h2
  simp only [LocalDate.mk.injEq]
  omega

/-- C7.  With an active plan decoding a finite image-count limit `L`, the
upload gate rejects with the quota error exactly when the count of the
user's resources created in the window `[first day of this month, first day
of next month)` (server local time) plus one exceeds `⌊L⌋`; resources
created before the window start are never counted, so a past window's usage
cannot block a later attempt. -/
theorem upload_quota_window (db : DB) (userId : Nat) (now : LocalDate)
    (fileSize : Int) (url : String) (limits : UserUploadLimits) (L : Rat)
    (hu : userId ∈ db.userProfiles)
    (hl : getUserUploadLimits db userId = some limits)
    (hL : limits.maxImagesPerMonth = some L) :
    ((uploadImageHandler db userId fileSize url now).1 =
        .quotaImagesExceeded limits.planName ↔
      ((imagesInWindow db userId now).length : Int) + 1 > L.floor) ∧
    (∀ img ∈ db.images, img.userId = userId →
      LocalDate.lt img.createdAt (monthStart now) = true →
      img ∉ imagesInWindow db userId now) := by
  constructor
  · unfold uploadImageHandler
    rw [if_pos hu, hl]
    simp only [getUserCurrentMonthUsage, hL]
    by_cases hq : ((imagesInWindow db userId now).length : Int) + 1 > L.floor
    · rw [if_pos (by simpa using hq)]
      simpa using hq
    · rw [if_neg (by simpa using hq)]
      constructor
      · intro h
        split at h <;> simp at h
      · intro h
        exact absurd h hq
  · intro img hmem huser hlt hin
    simp only [imagesInWindow, List.mem_filter, Bool.and_eq_true] at hin
    have hle : (monthStart now).le img.createdAt = true := hin.2.1.2
    simp only [LocalDate.lt, Bool.and_eq_true, bne_iff_ne, ne_eq] at hlt
    exact hlt.2 (LocalDate.le_antisymm hlt.1 hle)

/-- Concrete store for the C7 witness: user 1 on a plan limited to 3 images
per window, with 3 images already created this window and an older one from
the previous window. -/
def c7db : DB :=
  { userProfiles := [1],
    images := [⟨20, 1, "a", 1, ⟨2026, 5, 2⟩⟩, ⟨21, 1, "b", 1, ⟨2026, 5, 9⟩⟩,
               ⟨22, 1, "c", 1, ⟨2026, 5, 17⟩⟩, ⟨9, 1, "old", 1, ⟨2026, 4, 30⟩⟩],
    versions := [], filterLinks := [], watermarkLinks := [], watermarkPresets := [],
    filters := [],
    plans := [⟨5, "basic", "monthly", .obj [("max_images_month", .num 3)], .jnull⟩],
    subscriptions := [⟨0, 1, 5, "active", ⟨2026, 0, 5⟩, ⟨2026, 0, 5⟩, ⟨2026, 1, 5⟩⟩],
    planFilters := [], nextId := 100 }

theorem upload_quota_window_witness :
    (uploadImageHandler c7db 1 5 "u" ⟨2026, 5, 20⟩).1 =
      UploadResp.quotaImagesExceeded "basic" ∧
    (⟨9, 1, "old", 1, ⟨2026, 4, 30⟩⟩ : ImageRow) ∉ imagesInWindow c7db 1 ⟨2026, 5, 20⟩ := by
  have h := upload_quota_window c7db 1 ⟨2026, 5, 20⟩ 5 "u"
    ⟨5, "basic", some 3, none⟩ 3 (by decide) (by rfl) rfl
  exact ⟨h.1.mpr (by decide),
    h.2 ⟨9, 1, "old", 1, ⟨2026, 4, 30⟩⟩ (by decide) rfl (by decide)⟩

/-! ## C9: the two accepted filter-request shapes normalise identically -/

/-- An integer as a JS number value. -/
def jsInt (i : Int) : JsVal := .num (i : Rat)

/-- The preferred request shape:
`{ filterId: ..., intensity: ... }`. -/
def newShapeBody (ids intensity : JsVal) : JsVal :=
  .obj [("filterId", ids), ("intensity", intensity)]

/-- One entry of the deprecated `filters` array; an omitted intensity is an
absent field. -/
def legacyItem (p : Int × Option Int) : JsVal :=
  .obj (("filterId", jsInt p.1) ::
    (match p.2 with | some i => [("intensity", jsInt i)] | none => []))

/-- The deprecated request shape: `{ filters: [{filterId, intensity?}] }`. -/
def legacyBody (ps : List (Int × Option Int)) : JsVal :=
  .obj [("filters", .arr (ps.map legacyItem))]

theorem normalizeIntList_map (ids : List Int) :
    normalizeIntList (ids.map jsInt) = some ids := by
  induction ids with
  | nil => rfl
  | cons i rest ih =>
    simp only [List.map_cons, jsInt, normalizeIntList]
    rw [if_pos (by simp [Rat.den_intCast]), ih]
    simp [Rat.num_intCast]

theorem legacyItem_filterId (p : Int × Option Int) :
    getField (legacyItem p) "filterId" = jsInt p.1 := by
  rcases p with ⟨i, _ | t⟩ <;> rfl

theorem normalizeStackItems_map (ps : List (Int × Option Int)) :
    normalizeStackItems (ps.map legacyItem) = some ps := by
  induction ps with
  | nil => rfl
  | cons p rest ih =>
    rcases p with ⟨i, oint⟩
    rcases oint with _ | t
    · rw [show normalizeStackItems ((⟨i, none⟩ : Int × Option Int) :: rest |>.map legacyItem) =
        (if (((i : Rat)).den == 1) = true then
          Option.map (fun x => (((i : Rat)).num, (none : Option Int)) :: x)
            (normalizeStackItems (rest.map legacyItem))
        else none) from rfl]
      rw [if_pos (by simp [Rat.den_intCast]), ih]
      simp [Rat.num_intCast]
    · rw [show normalizeStackItems ((⟨i, some t⟩ : Int × Option Int) :: rest |>.map legacyItem) =
        (if (((i : Rat)).den == 1) = true then
          (if (((t : Rat)).den == 1) = true then
            Option.map (fun x => (((i : Rat)).num, some (((t : Rat)).num)) :: x)
              (normalizeStackItems (rest.map legacyItem))
          else none)
        else none) from rfl]
      rw [if_pos (by simp [Rat.den_intCast])]
      rw [if_pos (by simp [Rat.den_intCast]), ih]
      simp [Rat.num_intCast]

theorem enum_map_getD_eq (ps : List (Int × Int)) :
    (ps.map Prod.fst).enum.map (fun p => (p.2, (ps.map Prod.snd).getD p.1 100)) = ps := by
  apply List.ext_getElem?
  intro n
  rw [List.getElem?_map, List.getElem?_enum, List.getElem?_map]
  rcases hn : ps[n]? with _ | p
  · simp
  · obtain ⟨hlt, _⟩ := List.getElem?_eq_some.mp hn
    simp only [Option.map_some']
    rw [List.getD_eq_getElem?_getD, List.getElem?_map, hn]
    simp

theorem enum_map_replicate_getD (ids : List Int) (k : Int) :
    ids.enum.map (fun p => (p.2, (List.replicate ids.length k).getD p.1 100)) =
      ids.map (fun i => (i, k)) := by
  apply List.ext_getElem?
  intro n
  rw [List.getElem?_map, List.getElem?_enum, List.getElem?_map]
  rcases hn : ids[n]? with _ | i
  · simp
  · obtain ⟨hlt, _⟩ := List.getElem?_eq_some.mp hn
    simp only [Option.map_some']
    rw [List.getD_eq_getElem?_getD, List.getElem?_replicate, if_pos hlt]
    simp

/-- C9.  A logically identical filter request — a list of
`(filterId, intensity?)` pairs — normalises to the same internal stack in
the same order whether it is sent in the preferred `filterId`/`intensity`
shape (array, broadcast scalar, omitted intensity, or bare integer) or in
the deprecated `filters` array shape, with omitted intensities defaulting
to 100 in both; and the apply handler's behaviour depends on the body only
through that normalised stack, so the resulting version and links are
identical. -/
theorem filter_request_shapes_equivalent (ps : List (Int × Int))
    (ids : List Int) (k : Int) (hps : ps ≠ []) (hids : ids ≠ []) :
    (buildStack (newShapeBody (.arr ((ps.map Prod.fst).map jsInt))
        (.arr ((ps.map Prod.snd).map jsInt))) = some ps ∧
      buildStack (legacyBody (ps.map (fun p => (p.1, some p.2)))) = some ps) ∧
    (buildStack (newShapeBody (.arr (ids.map jsInt)) .undefVal) =
        some (ids.map (fun i => (i, 100))) ∧
      buildStack (legacyBody (ids.map (fun i => (i, none)))) =
        some (ids.map (fun i => (i, 100)))) ∧
    (buildStack (newShapeBody (.arr (ids.map jsInt)) (jsInt k)) =
        some (ids.map (fun i => (i, k))) ∧
      buildStack (legacyBody (ids.map (fun i => (i, some k)))) =
        some (ids.map (fun i => (i, k)))) ∧
    (∀ i x, buildStack (newShapeBody (jsInt i) x) =
      buildStack (newShapeBody (.arr [jsInt i]) x)) ∧
    (∀ db imageId now b1 b2, buildStack b1 = buildStack b2 →
      applyFilterHandler db imageId b1 now = applyFilterHandler db imageId b2 now) := by
  have hids_arr : ∀ l : List Int, l ≠ [] →
      normalizeFilterIds (.arr (l.map jsInt)) = some l := by
    intro l hl
    simp only [normalizeFilterIds]
    rw [if_neg (by simpa using hl), normalizeIntList_map]
  have hlegacy : ∀ qs : List (Int × Option Int), qs ≠ [] →
      buildStack (legacyBody qs) = some (qs.map (fun f => (f.1, f.2.getD 100))) := by
    intro qs hq
    show buildStack (legacyBody qs) = _
    simp only [buildStack]
    rw [show getField (legacyBody qs) "filterId" = JsVal.undefVal from rfl,
      show getField (legacyBody qs) "intensity" = JsVal.undefVal from rfl,
      show getField (legacyBody qs) "filters" = .arr (qs.map legacyItem) from rfl]
    simp only [normalizeFilterIds, normalizeFilterStack, normalizeStackItems_map]
    rw [if_neg (by simpa using hq)]
  refine ⟨⟨?_, ?_⟩, ⟨?_, ?_⟩, ⟨?_, ?_⟩, ?_, ?_⟩
  · have hfst : ps.map Prod.fst ≠ [] := by simpa using hps
    simp only [buildStack]
    rw [show getField (newShapeBody (.arr ((ps.map Prod.fst).map jsInt))
        (.arr ((ps.map Prod.snd).map jsInt))) "filterId" =
        .arr ((ps.map Prod.fst).map jsInt) from rfl,
      show getField (newShapeBody (.arr ((ps.map Prod.fst).map jsInt))
        (.arr ((ps.map Prod.snd).map jsInt))) "intensity" =
        .arr ((ps.map Prod.snd).map jsInt) from rfl,
      hids_arr _ hfst]
    simp only [normalizeIntensities]
    rw [if_neg (by simp)]
    rw [normalizeIntList_map]
    simp only [Option.some.injEq]
    exact enum_map_getD_eq ps
  · rw [hlegacy _ (by simpa using hps), List.map_map]
    exact congrArg some (List.map_id ps)
  · simp only [buildStack]
    rw [show getField (newShapeBody (.arr (ids.map jsInt)) .undefVal) "filterId" =
        .arr (ids.map jsInt) from rfl,
      show getField (newShapeBody (.arr (ids.map jsInt)) .undefVal) "intensity" =
        JsVal.undefVal from rfl,
      hids_arr _ hids]
    simp only [normalizeIntensities, Option.some.injEq]
    exact enum_map_replicate_getD ids 100
  · rw [hlegacy _ (by simpa using hids), List.map_map]
    rfl
  · simp only [buildStack]
    rw [show getField (newShapeBody (.arr (ids.map jsInt)) (jsInt k)) "filterId" =
        .arr (ids.map jsInt) from rfl,
      show getField (newShapeBody (.arr (ids.map jsInt)) (jsInt k)) "intensity" =
        jsInt k from rfl,
      hids_arr _ hids]
    simp only [normalizeIntensities, jsInt]
    rw [if_pos (by simp [Rat.den_intCast])]
    simp only [Option.some.injEq, Rat.num_intCast]
    exact enum_map_replicate_getD ids k
  · rw [hlegacy _ (by simpa using hids), List.map_map]
    rfl
  · intro i x
    simp only [buildStack]
    rw [show getField (newShapeBody (jsInt i) x) "filterId" = jsInt i from rfl,
      show getField (newShapeBody (.arr [jsInt i]) x) "filterId" =
        .arr [jsInt i] from rfl,
      show getField (newShapeBody (jsInt i) x) "intensity" = x from rfl,
      show getField (newShapeBody (.arr [jsInt i]) x) "intensity" = x from rfl,
      show getField (newShapeBody (jsInt i) x) "filters" = JsVal.undefVal from rfl,
      show getField (newShapeBody (.arr [jsInt i]) x) "filters" = JsVal.undefVal from rfl]
    have h1 : normalizeFilterIds (jsInt i) = some [i] := by
      simp only [normalizeFilterIds, jsInt]
      rw [if_pos (by simp [Rat.den_intCast])]
      simp [Rat.num_intCast]
    have h2 : normalizeFilterIds (.arr [jsInt i]) = some [i] := by
      simpa using hids_arr [i] (by simp)
    rw [h1, h2]
  · intro db imageId now b1 b2 h
    simp only [applyFilterHandler, h]

theorem filter_request_shapes_equivalent_witness :
    buildStack (newShapeBody (.arr [jsInt 1, jsInt 2]) (.arr [jsInt 80, jsInt 50])) =
      some [(1, 80), (2, 50)] ∧
    buildStack (legacyBody [(1, some 80), (2, some 50)]) = some [(1, 80), (2, 50)] := by
  have h := (filter_request_shapes_equivalent [(1, 80), (2, 50)] [1, 2] 7
    (by decide) (by decide)).1
  exact ⟨h.1, h.2⟩

/-! ## C8: request validation failures precede the transaction -/

theorem validateStackLoop_none (stack : List (Int × Int)) :
    ∀ seen, validateStackLoop stack seen = none →
      (∀ p ∈ stack, 0 ≤ p.2 ∧ p.2 ≤ 100) ∧
      (∀ x ∈ seen, x ∉ stack.map Prod.fst) ∧
      (stack.map Prod.fst).Nodup := by
  induction stack with
  | nil =>
    intro seen _
    exact ⟨by simp, by simp, by simp⟩
  | cons p rest ih =>
    intro seen h
    rcases p with ⟨fid, inten⟩
    simp only [validateStackLoop] at h
    by_cases h1 : ¬(0 ≤ inten ∧ inten ≤ 100)
    · rw [if_pos h1] at h
      cases h
    · rw [if_neg h1] at h
      by_cases h2 : fid ∈ seen
      · rw [if_pos h2] at h
        cases h
      · rw [if_neg h2] at h
        obtain ⟨hall, hseen, hnd⟩ := ih (fid :: seen) h
        refine ⟨?_, ?_, ?_⟩
        · intro q hq
          rcases List.mem_cons.mp hq with hq' | hq'
          · rw [hq']
            exact not_not.mp h1
          · exact hall q hq'
        · intro x hx
          simp only [List.map_cons, List.mem_cons, not_or]
          constructor
          · intro hxf
            exact h2 (hxf ▸ hx)
          · exact hseen x (List.mem_cons_of_mem _ hx)
        · simp only [List.map_cons, List.nodup_cons]
          exact ⟨hseen fid (List.mem_cons_self _ _), hnd⟩

theorem validateStackLoop_default_intensity (ids : List Int) :
    ∀ seen, validateStackLoop (ids.map (fun i => (i, 100))) seen ≠
      some StackError.invalidIntensity := by
  induction ids with
  | nil =>
    intro seen h
    cases h
  | cons i rest ih =>
    intro seen
    simp only [List.map_cons, validateStackLoop]
    rw [if_neg (by simp)]
    by_cases h2 : i ∈ seen
    · rw [if_pos h2]
      simp
    · rw [if_neg h2]
      exact ih (i :: seen)

/-- C8.  A filter request whose normalised stack contains a duplicate filter
id or an out-of-range intensity is rejected with an InvalidInput-class (400)
response before the version-chain transaction runs, leaving the store
untouched (so no version and no link rows are created); a request the
normaliser itself rejects gets the same treatment; and an omitted intensity
defaults to 100 and can never trigger the intensity rejection. -/
theorem filter_validation_rejects (db : DB) (imageId : Nat) (body : JsVal)
    (now : Nat) :
    (∀ stack, buildStack body = some stack →
      (¬ (stack.map Prod.fst).Nodup ∨ ∃ p ∈ stack, ¬(0 ≤ p.2 ∧ p.2 ≤ 100)) →
      ∃ msg, applyFilterHandler db imageId body now = (.invalidInput msg, db)) ∧
    (buildStack body = none →
      ∃ msg, applyFilterHandler db imageId body now = (.invalidInput msg, db)) ∧
    (∀ ids : List Int, ∀ seen,
      validateStackLoop (ids.map (fun i => (i, 100))) seen ≠
        some StackError.invalidIntensity) := by
  refine ⟨?_, ?_, fun ids seen => validateStackLoop_default_intensity ids seen⟩
  · intro stack hb hbad
    have hv : validateStack stack ≠ none := by
      intro hnone
      obtain ⟨hall, _, hnd⟩ := validateStackLoop_none stack [] hnone
      rcases hbad with hdup | ⟨p, hp, hrange⟩
      · exact hdup hnd
      · exact hrange (hall p hp)
    rcases he : validateStack stack with _ | e
    · exact absurd he hv
    · unfold applyFilterHandler
      rcases e <;> simp only [hb, he] <;> exact ⟨_, rfl⟩
  · intro hb
    unfold applyFilterHandler
    simp only [hb]
    exact ⟨_, rfl⟩

/-- Concrete empty store for witnesses. -/
def emptyDB : DB := ⟨[], [], [], [], [], [], [], [], [], [], 0⟩

theorem filter_validation_rejects_witness :
    ∃ msg, applyFilterHandler emptyDB 10 (legacyBody [(1, some 60), (1, some 40)]) 0 =
      (.invalidInput msg, emptyDB) := by
  exact (filter_validation_rejects emptyDB 10 _ 0).1 [(1, 60), (1, 40)] (by rfl)
    (Or.inl (by decide))

/-! ## C1: pruning keeps resource-scoped links only on the new version -/

theorem versionImageId_append_ne (versions : List VersionRow) (v : VersionRow)
    (vid : Nat) (hne : vid ≠ v.id) :
    versionImageId (versions ++ [v]) vid = versionImageId versions vid := by
  unfold versionImageId
  rw [List.find?_append]
  have h1 : List.find? (fun w => w.id == vid) [v] = none := by
    cases hb : ((v.id == vid) : Bool)
    · simp [List.find?, hb]
    · exact absurd (by simpa using hb) (Ne.symm hne)
  rw [h1, Option.or_none]

theorem versionImageId_append_self (versions : List VersionRow) (v : VersionRow)
    (hfresh : ∀ w ∈ versions, w.id ≠ v.id) :
    versionImageId (versions ++ [v]) v.id = some v.imageId := by
  unfold versionImageId
  rw [List.find?_append]
  rw [List.find?_eq_none.mpr (fun w hw => by simpa using hfresh w hw)]
  have h1 : List.find? (fun w => w.id == v.id) [v] = some v := by
    simp [List.find?]
  rw [h1, Option.none_or]
  rfl

/-- The effect of one insert-then-prune round on a link table: after the
prune, every remaining link of the edited resource points at the new
version, and the links whose versions belong to other resources are exactly
the ones that were there before. -/
theorem prune_only_new {α : Type} (vidOf : α → Nat) (versionsOld : List VersionRow)
    (v : VersionRow) (imageId : Nat) (old nw : List α)
    (hfresh : ∀ w ∈ versionsOld, w.id ≠ v.id)
    (himg : v.imageId = imageId)
    (holdref : ∀ l ∈ old, ∃ w ∈ versionsOld, w.id = vidOf l)
    (hnw : ∀ l ∈ nw, vidOf l = v.id) :
    (∀ l ∈ (old ++ nw).filter (fun l =>
        ! (vidOf l != v.id && versionImageId (versionsOld ++ [v]) (vidOf l) == some imageId)),
      versionImageId (versionsOld ++ [v]) (vidOf l) = some imageId → vidOf l = v.id) ∧
    ((old ++ nw).filter (fun l =>
        ! (vidOf l != v.id &&
          versionImageId (versionsOld ++ [v]) (vidOf l) == some imageId))).filter
        (fun l => ! (versionImageId (versionsOld ++ [v]) (vidOf l) == some imageId)) =
      old.filter (fun l => ! (versionImageId versionsOld (vidOf l) == some imageId)) := by
  constructor
  · intro l hl him
    have hk := List.of_mem_filter hl
    by_contra hne
    simp [him, hne] at hk
  · rw [List.filter_filter, List.filter_append]
    have hnw2 : nw.filter (fun l =>
        (! (versionImageId (versionsOld ++ [v]) (vidOf l) == some imageId)) &&
        (! (vidOf l != v.id &&
          versionImageId (versionsOld ++ [v]) (vidOf l) == some imageId))) = [] := by
      rw [List.filter_eq_nil_iff]
      intro l hle
      have hv : vidOf l = v.id := hnw l hle
      have himv : versionImageId (versionsOld ++ [v]) (vidOf l) = some imageId := by
        rw [hv, versionImageId_append_self versionsOld v hfresh, himg]
      simp [himv]
    have hold2 : old.filter (fun l =>
        (! (versionImageId (versionsOld ++ [v]) (vidOf l) == some imageId)) &&
        (! (vidOf l != v.id &&
          versionImageId (versionsOld ++ [v]) (vidOf l) == some imageId))) =
        old.filter (fun l => ! (versionImageId versionsOld (vidOf l) == some imageId)) := by
      apply List.filter_congr
      intro l hle
      obtain ⟨w, hw, hwid⟩ := holdref l hle
      have hne : vidOf l ≠ v.id := by
        rw [← hwid]
        exact hfresh w hw
      rw [versionImageId_append_ne versionsOld v (vidOf l) hne]
      cases him2 : (versionImageId versionsOld (vidOf l) == some imageId) <;>
        simp [him2, hne]
    rw [hnw2, hold2, List.append_nil]

/-- C1.  After a successful `applyFiltersToImage`, the only remaining filter
links whose version belongs to the edited resource are those of the newly
created version, and filter links on other resources' versions are exactly
preserved; after a successful `applyWatermarkToImage`, the same holds for
watermark placements.  (Each prune is scoped by resource and runs inside
the edit's transaction.) -/
theorem applyEdit_prunes_only_latest (db : DB) (imageId : Nat)
    (stack : List (Int × Int)) (url : String) (md : JsVal) (now : Nat)
    (wmId : Int) (hwf : db.Wf) :
    (∀ out db2, applyFiltersToImage db imageId stack url md now = (out, db2) →
      (∀ l ∈ db2.filterLinks,
        versionImageId db2.versions l.imageVersionId = some imageId →
        l.imageVersionId = out.version.id) ∧
      db2.filterLinks.filter (fun l =>
          ! (versionImageId db2.versions l.imageVersionId == some imageId)) =
        db.filterLinks.filter (fun l =>
          ! (versionImageId db.versions l.imageVersionId == some imageId))) ∧
    (∀ v pl db2, applyWatermarkToImage db imageId wmId url now = (.ok v pl, db2) →
      (∀ l ∈ db2.watermarkLinks,
        versionImageId db2.versions l.imageVersionId = some imageId →
        l.imageVersionId = v.id) ∧
      db2.watermarkLinks.filter (fun l =>
          ! (versionImageId db2.versions l.imageVersionId == some imageId)) =
        db.watermarkLinks.filter (fun l =>
          ! (versionImageId db.versions l.imageVersionId == some imageId))) := by
  obtain ⟨hvIds, hvNodup, hfRef, hwRef, hwIds, hwNodup, hfKey, hwSort⟩ := hwf
  constructor
  · intro out db2 h
    simp only [applyFiltersToImage, Prod.mk.injEq] at h
    obtain ⟨hout, hdb⟩ := h
    subst hdb
    have hspec := prune_only_new (fun l => l.imageVersionId) db.versions
      ⟨db.nextId, imageId, url, md, now⟩ imageId db.filterLinks
      (stack.enum.map (fun p =>
        (⟨db.nextId, p.2.1, p.2.2, (p.1 : Int), now⟩ : FilterLinkRow)))
      (fun w hw => Nat.ne_of_lt (hvIds w hw)) rfl hfRef
      (by
        intro l hl
        obtain ⟨p, _, hp⟩ := List.mem_map.mp hl
        rw [← hp])
    constructor
    · intro l hl him
      rw [← hout]
      exact hspec.1 l hl him
    · exact hspec.2
  · intro v pl db2 h
    unfold applyWatermarkToImage at h
    rcases hw : db.watermarkPresets.find? (fun w => w.id == wmId) with _ | watermark <;>
      simp only [hw] at h
    · simp at h
    by_cases htxt : (jsTrim watermark.text == "") = true
    · rw [if_pos htxt] at h
      simp at h
    · rw [if_neg htxt] at h
      simp only [Prod.mk.injEq, WatermarkApplyResp.ok.injEq] at h
      obtain ⟨⟨hv, hpl⟩, hdb⟩ := h
      subst hdb
      have hspec := prune_only_new (fun l => l.imageVersionId) db.versions
        ⟨db.nextId, imageId, url, wmMetadata (wmPrevious db imageId) wmId, now⟩
        imageId db.watermarkLinks
        (wmCarried (wmPrevious db imageId) db.nextId (db.nextId + 1) now ++
          [⟨db.nextId + 1 + (wmPrevious db imageId).length, db.nextId,
            some watermark.id, watermark.text, watermark.position,
            watermark.opacity, watermark.font.getD "Inter",
            wmMaxSort (wmPrevious db imageId) + 1, now⟩])
        (fun w hw2 => Nat.ne_of_lt (hvIds w hw2)) rfl hwRef
        (by
          intro l hl
          rcases List.mem_append.mp hl with hc | hp
          · obtain ⟨p, _, hp2⟩ := List.mem_map.mp hc
            rw [← hp2]
          · simp only [List.mem_singleton] at hp
            rw [hp])
      constructor
      · intro l hl him
        rw [← hv]
        exact hspec.1 l hl him
      · exact hspec.2

/-- Concrete store for the C1 witness: two resources, each with one version
carrying one link of each kind. -/
def c1db : DB :=
  { userProfiles := [1],
    images := [⟨10, 1, "a", 0, ⟨2026, 0, 1⟩⟩, ⟨11, 1, "b", 0, ⟨2026, 0, 1⟩⟩],
    versions := [⟨1, 10, "a", .jnull, 1⟩, ⟨2, 11, "b", .jnull, 2⟩],
    filterLinks := [⟨1, 7, 50, 0, 1⟩, ⟨2, 8, 60, 0, 2⟩],
    watermarkLinks := [⟨30, 1, some 3, "T", "se", 1, "F", 0, 1⟩,
                       ⟨31, 2, some 3, "T", "se", 1, "F", 0, 2⟩],
    watermarkPresets := [⟨3, 1, "p", "TXT", "se", 1, some "F"⟩],
    filters := [⟨7, "sepia"⟩, ⟨8, "blur"⟩],
    plans := [], subscriptions := [], planFilters := [], nextId := 40 }

theorem applyEdit_prunes_only_latest_witness :
    ∃ out db2, applyFiltersToImage c1db 10 [(7, 80)] "a" .jnull 5 = (out, db2) ∧
      (∀ l ∈ db2.filterLinks,
        versionImageId db2.versions l.imageVersionId = some 10 →
        l.imageVersionId = out.version.id) ∧
      db2.filterLinks.filter (fun l =>
          ! (versionImageId db2.versions l.imageVersionId == some 10)) =
        c1db.filterLinks.filter (fun l =>
          ! (versionImageId c1db.versions l.imageVersionId == some 10)) := by
  refine ⟨_, _, rfl, ?_⟩
  exact (applyEdit_prunes_only_latest c1db 10 [(7, 80)] "a" .jnull 5 3
    (by decide)).1 _ _ rfl

/-! ## C2: the new version's filter links are exactly the requested stack -/

/-- C2.  A successful `applyFiltersToImage` creates a genuinely new version
of the resource, and the filter links attached to it afterwards are exactly
the requested `(filterId, intensity)` pairs in request order with sort
orders `0, 1, …, n-1` — prior active links are not merged in. -/
theorem applyFilters_links_exact (db : DB) (imageId : Nat)
    (stack : List (Int × Int)) (url : String) (md : JsVal) (now : Nat)
    (hwf : db.Wf) :
    ∀ out db2, applyFiltersToImage db imageId stack url md now = (out, db2) →
      out.version ∈ db2.versions ∧ out.version.imageId = imageId ∧
      out.version ∉ db.versions ∧
      (db2.filterLinks.filter (fun l => l.imageVersionId == out.version.id)).map
          (fun l => (l.filterId, l.intensity, l.sortOrder)) =
        stack.enum.map (fun p => (p.2.1, p.2.2, (p.1 : Int))) := by
  intro out db2 h
  simp only [applyFiltersToImage, Prod.mk.injEq] at h
  obtain ⟨hout, hdb⟩ := h
  subst hdb
  obtain ⟨hvIds, hvNodup, hfRef, _⟩ := hwf
  have hvfresh : ∀ w ∈ db.versions, w.id ≠ db.nextId :=
    fun w hw => Nat.ne_of_lt (hvIds w hw)
  refine ⟨?_, ?_, ?_, ?_⟩
  · rw [← hout]
    simp
  · rw [← hout]
  · rw [← hout]
    intro hmem
    exact hvfresh _ hmem rfl
  · rw [← hout]
    have key : List.map (fun l => (l.filterId, l.intensity, l.sortOrder))
        (List.filter (fun l => l.imageVersionId == db.nextId)
          (List.filter (fun l =>
              ! (l.imageVersionId != db.nextId &&
                versionImageId (db.versions ++
                    [(⟨db.nextId, imageId, url, md, now⟩ : VersionRow)])
                  l.imageVersionId == some imageId))
            (db.filterLinks ++ stack.enum.map (fun p =>
              (⟨db.nextId, p.2.1, p.2.2, (p.1 : Int), now⟩ : FilterLinkRow))))) =
        stack.enum.map (fun p => (p.2.1, p.2.2, (p.1 : Int))) := by
      rw [List.filter_filter, List.filter_append]
      have h1 : db.filterLinks.filter (fun l => (l.imageVersionId == db.nextId) &&
          ! (l.imageVersionId != db.nextId &&
            versionImageId (db.versions ++ [⟨db.nextId, imageId, url, md, now⟩])
              l.imageVersionId == some imageId)) = [] := by
        rw [List.filter_eq_nil_iff]
        intro l hl
        obtain ⟨w, hw, hwid⟩ := hfRef l hl
        have hne : l.imageVersionId ≠ db.nextId := by
          rw [← hwid]
          exact hvfresh w hw
        simp [hne]
      have h2 : (stack.enum.map (fun p =>
          (⟨db.nextId, p.2.1, p.2.2, (p.1 : Int), now⟩ : FilterLinkRow))).filter
          (fun l => (l.imageVersionId == db.nextId) &&
          ! (l.imageVersionId != db.nextId &&
            versionImageId (db.versions ++ [⟨db.nextId, imageId, url, md, now⟩])
              l.imageVersionId == some imageId)) =
          stack.enum.map (fun p =>
            (⟨db.nextId, p.2.1, p.2.2, (p.1 : Int), now⟩ : FilterLinkRow)) := by
        rw [List.filter_eq_self]
        intro l hl
        obtain ⟨p, _, hp⟩ := List.mem_map.mp hl
        rw [← hp]
        simp
      rw [h1, h2, List.nil_append, List.map_map]
      rfl
    exact key

theorem applyFilters_links_exact_witness :
    ∃ out db2, applyFiltersToImage c1db 10 [(7, 80), (8, 100)] "a" .jnull 5 = (out, db2) ∧
      (db2.filterLinks.filter (fun l => l.imageVersionId == out.version.id)).map
          (fun l => (l.filterId, l.intensity, l.sortOrder)) =
        [(7, 80, 0), (8, 100, 1)] := by
  refine ⟨_, _, rfl, ?_⟩
  exact ((applyFilters_links_exact c1db 10 [(7, 80), (8, 100)] "a" .jnull 5
    (by decide)) _ _ rfl).2.2.2

/-! ## C3: watermark application carries placements forward verbatim -/

theorem foldl_maxSort_init (l : List WatermarkLinkRow) (a : Int) :
    a ≤ l.foldl (fun acc q => max acc q.sortOrder) a := by
  induction l generalizing a with
  | nil => simp
  | cons x xs ih =>
    simp only [List.foldl_cons]
    exact le_trans (le_max_left _ _) (ih (max a x.sortOrder))

theorem foldl_maxSort_le (l : List WatermarkLinkRow) (a : Int) :
    ∀ p ∈ l, p.sortOrder ≤ l.foldl (fun acc q => max acc q.sortOrder) a := by
  induction l generalizing a with
  | nil => simp
  | cons x xs ih =>
    intro p hp
    simp only [List.foldl_cons]
    rcases List.mem_cons.mp hp with h | h
    · subst h
      exact le_trans (le_max_right a _) (foldl_maxSort_init xs _)
    · exact ih _ p h

theorem foldl_maxSort_mem (l : List WatermarkLinkRow) (a : Int) :
    l.foldl (fun acc q => max acc q.sortOrder) a = a ∨
      ∃ p ∈ l, l.foldl (fun acc q => max acc q.sortOrder) a = p.sortOrder := by
  induction l generalizing a with
  | nil => simp
  | cons x xs ih =>
    simp only [List.foldl_cons]
    rcases ih (max a x.sortOrder) with h | ⟨p, hp, he⟩
    · rw [h]
      rcases max_cases a x.sortOrder with ⟨he2, _⟩ | ⟨he2, _⟩
      · left
        exact he2
      · right
        exact ⟨x, List.mem_cons_self _ _, he2⟩
    · right
      exact ⟨p, List.mem_cons_of_mem _ hp, he⟩

/-- After an insert-then-prune round, the links attached to the fresh
version are exactly the inserted ones. -/
theorem prune_new_only {α : Type} (vidOf : α → Nat) (versionsOld : List VersionRow)
    (v : VersionRow) (imageId : Nat) (old nw : List α)
    (hfresh : ∀ w ∈ versionsOld, w.id ≠ v.id)
    (holdref : ∀ l ∈ old, ∃ w ∈ versionsOld, w.id = vidOf l)
    (hnw : ∀ l ∈ nw, vidOf l = v.id) :
    ((old ++ nw).filter (fun l =>
        ! (vidOf l != v.id &&
          versionImageId (versionsOld ++ [v]) (vidOf l) == some imageId))).filter
      (fun l => vidOf l == v.id) = nw := by
  rw [List.filter_filter, List.filter_append]
  have h1 : old.filter (fun l => (vidOf l == v.id) &&
      ! (vidOf l != v.id &&
        versionImageId (versionsOld ++ [v]) (vidOf l) == some imageId)) = [] := by
    rw [List.filter_eq_nil_iff]
    intro l hl
    obtain ⟨w, hw, hwid⟩ := holdref l hl
    have hne : vidOf l ≠ v.id := by
      rw [← hwid]
      exact hfresh w hw
    simp [hne]
  have h2 : nw.filter (fun l => (vidOf l == v.id) &&
      ! (vidOf l != v.id &&
        versionImageId (versionsOld ++ [v]) (vidOf l) == some imageId)) = nw := by
    rw [List.filter_eq_self]
    intro l hl
    simp [hnw l hl]
  rw [h1, h2, List.nil_append]

theorem wmCarried_proj (previous : List WatermarkLinkRow) (vid base now : Nat) :
    (wmCarried previous vid base now).map wmProj = previous.map wmProj := by
  unfold wmCarried
  rw [List.map_map]
  rw [show (wmProj ∘ fun p : Nat × WatermarkLinkRow =>
      ({ p.2 with id := base + p.1, imageVersionId := vid, appliedAt := now } :
        WatermarkLinkRow)) = wmProj ∘ Prod.snd from rfl]
  rw [show List.map (wmProj ∘ Prod.snd) previous.enum =
    List.map wmProj (List.map Prod.snd previous.enum) from (List.map_map _ _ _).symm]
  rw [List.enum_map_snd]

/-- When a resource's versions have pairwise-distinct creation timestamps,
the watermark model's `orderBy: { createdAt: "desc" }` read selects the §3
latest version. -/
theorem wm_latest_eq_spec (db : DB) (imageId : Nat) (lv : VersionRow)
    (hvNodup : db.versions.Pairwise (fun a b => a.id ≠ b.id))
    (hts : ∀ v ∈ db.versions, ∀ w ∈ db.versions, v.imageId = imageId →
      w.imageId = imageId → v.id ≠ w.id → v.createdAt ≠ w.createdAt)
    (hlv : IsLatestVersion db imageId lv) :
    selectTop versionBeforeCreatedAt
      (db.versions.filter (fun v => v.imageId == imageId)) = some lv := by
  obtain ⟨hmem, himg, htop⟩ := hlv
  apply selectTop_eq_of_top
  · exact List.mem_filter.mpr ⟨hmem, by simp [himg]⟩
  · simp [versionBeforeCreatedAt]
  · intro y hy h1
    have h1b : y.createdAt < lv.createdAt := by
      simpa [versionBeforeCreatedAt] using h1
    simp only [versionBeforeCreatedAt, decide_eq_false_iff_not]
    omega
  · intro y hy hylv
    have hy2 := List.mem_filter.mp hy
    have hyv : y ∈ db.versions := hy2.1
    have hyimg : y.imageId = imageId := by simpa using hy2.2
    have hidne : y.id ≠ lv.id := by
      have hsym : Symmetric (fun a b : VersionRow => a.id ≠ b.id) :=
        fun a b h => Ne.symm h
      exact hvNodup.forall hsym hyv hmem hylv
    have hlt := htop y hyv hyimg hidne
    rcases hlt with hlt | ⟨heq, _⟩
    · simp [versionBeforeCreatedAt, hlt]
    · exact absurd heq (hts y hyv lv hmem hyimg himg hidne)

/-- Fresh resource for the C3 scenario: image 10 with no versions and two
watermark presets A (id 1) and B (id 2). -/
def c3db : DB :=
  { userProfiles := [1], images := [⟨10, 1, "u", 0, ⟨2026, 0, 1⟩⟩],
    versions := [], filterLinks := [], watermarkLinks := [],
    watermarkPresets := [⟨1, 1, "A", "A", "nw", 1, some "F"⟩,
                         ⟨2, 1, "B", "B", "se", 1, some "F"⟩],
    filters := [], plans := [], subscriptions := [], planFilters := [],
    nextId := 100 }

/-- C3 (amended).  When the resource's versions have pairwise-distinct
creation timestamps — so the watermark model's `createdAt`-only latest read
is determinate and agrees with §3 — a successful watermark application
copies every placement of the prior latest version verbatim — same watermark id, text, position, opacity, font
and sort order — onto the new version and appends exactly one placement for
the requested preset, whose sort order is `max(previous sort orders) + 1`
(`0` when there were none); applying preset A and then preset B to a fresh
resource leaves the final version with exactly the two placements at sort
orders 0 and 1 and no placement on any earlier version. -/
theorem applyWatermark_carries_forward (db : DB) (imageId : Nat) (wmId : Int)
    (url : String) (now : Nat) (hwf : db.Wf)
    (hts : ∀ v ∈ db.versions, ∀ w ∈ db.versions, v.imageId = imageId →
      w.imageId = imageId → v.id ≠ w.id → v.createdAt ≠ w.createdAt) :
    (∀ v pl db2 lv, applyWatermarkToImage db imageId wmId url now = (.ok v pl, db2) →
      IsLatestVersion db imageId lv →
      ((db2.watermarkLinks.filter (fun l => l.imageVersionId == v.id)).map wmProj).Perm
        (((db.watermarkLinks.filter (fun l => l.imageVersionId == lv.id)).map wmProj) ++
          [wmProj pl]) ∧
      pl.imageVersionId = v.id ∧ pl.watermarkId = some wmId ∧
      (∀ q ∈ db.watermarkLinks.filter (fun l => l.imageVersionId == lv.id),
        q.sortOrder < pl.sortOrder) ∧
      (db.watermarkLinks.filter (fun l => l.imageVersionId == lv.id) = [] →
        pl.sortOrder = 0) ∧
      (db.watermarkLinks.filter (fun l => l.imageVersionId == lv.id) ≠ [] →
        ∃ q ∈ db.watermarkLinks.filter (fun l => l.imageVersionId == lv.id),
          pl.sortOrder = q.sortOrder + 1)) ∧
    ((applyWatermarkToImage (applyWatermarkToImage c3db 10 1 "u" 1).2
        10 2 "u" 2).2.watermarkLinks.map
      (fun l => (l.imageVersionId, l.watermarkId, l.sortOrder))) =
      [(102, some 1, 0), (102, some 2, 1)] := by
  constructor
  · intro v pl db2 lv h hlv
    obtain ⟨hvIds, hvNodup, hfRef, hwRef, hwIds, hwNodup, hfKey, hwSort⟩ := hwf
    unfold applyWatermarkToImage at h
    rcases hw : db.watermarkPresets.find? (fun w => w.id == wmId) with _ | watermark <;>
      simp only [hw] at h
    · simp at h
    by_cases htxt : (jsTrim watermark.text == "") = true
    · rw [if_pos htxt] at h
      simp at h
    · rw [if_neg htxt] at h
      simp only [Prod.mk.injEq, WatermarkApplyResp.ok.injEq] at h
      obtain ⟨⟨hv, hpl⟩, hdb⟩ := h
      subst hdb
      have hprev : wmPrevious db imageId = sortRowsBy wmLinkLe
          (db.watermarkLinks.filter (fun l => l.imageVersionId == lv.id)) := by
        unfold wmPrevious
        rw [wm_latest_eq_spec db imageId lv hvNodup hts hlv]
      have hwmid : watermark.id = wmId := by
        simpa using List.find?_some hw
      have hperm0 : (wmPrevious db imageId).Perm
          (db.watermarkLinks.filter (fun l => l.imageVersionId == lv.id)) := by
        rw [hprev]
        exact sortRowsBy_perm _ _
      have hprevmem : ∀ q ∈ wmPrevious db imageId, q ∈ db.watermarkLinks := by
        intro q hq
        exact (List.mem_filter.mp (hperm0.mem_iff.mp hq)).1
      have hattached := prune_new_only (fun l => l.imageVersionId) db.versions
        (⟨db.nextId, imageId, url,
          wmMetadata (wmPrevious db imageId) wmId, now⟩ : VersionRow)
        imageId db.watermarkLinks
        (wmCarried (wmPrevious db imageId) db.nextId (db.nextId + 1) now ++
          [⟨db.nextId + 1 + (wmPrevious db imageId).length, db.nextId,
            some watermark.id, watermark.text, watermark.position,
            watermark.opacity, watermark.font.getD "Inter",
            wmMaxSort (wmPrevious db imageId) + 1, now⟩])
        (fun w hw2 => Nat.ne_of_lt (hvIds w hw2)) hwRef
        (by
          intro l hl
          rcases List.mem_append.mp hl with hc | hp
          · obtain ⟨p, _, hp2⟩ := List.mem_map.mp hc
            rw [← hp2]
          · simp only [List.mem_singleton] at hp
            rw [hp])
      refine ⟨?_, ?_, ?_, ?_, ?_, ?_⟩
      · rw [← hv, ← hpl]
        refine List.Perm.trans
          (List.Perm.of_eq (congrArg (List.map wmProj) hattached)) ?_
        rw [List.map_append, wmCarried_proj]
        exact (hperm0.map wmProj).append (List.Perm.refl _)
      · rw [← hv, ← hpl]
      · rw [← hpl]
        show some watermark.id = some wmId
        rw [hwmid]
      · intro q hq
        rw [← hpl]
        show q.sortOrder < wmMaxSort (wmPrevious db imageId) + 1
        have hq2 : q ∈ wmPrevious db imageId := hperm0.mem_iff.mpr hq
        have := foldl_maxSort_le (wmPrevious db imageId) (-1) q hq2
        unfold wmMaxSort
        omega
      · intro hempty
        rw [← hpl]
        show wmMaxSort (wmPrevious db imageId) + 1 = 0
        rw [hprev, hempty]
        rfl
      · intro hnonempty
        rw [← hpl]
        have hpne : wmPrevious db imageId ≠ [] := by
          intro hnil
          rw [hnil] at hperm0
          exact hnonempty (List.Perm.eq_nil hperm0.symm)
        rcases foldl_maxSort_mem (wmPrevious db imageId) (-1) with hm | ⟨p, hp, hm⟩
        · exfalso
          rcases List.exists_mem_of_ne_nil _ hpne with ⟨q0, hq0⟩
          have h1 := foldl_maxSort_le (wmPrevious db imageId) (-1) q0 hq0
          have h2 := hwSort q0 (hprevmem q0 hq0)
          rw [hm] at h1
          omega
        · refine ⟨p, hperm0.mem_iff.mp hp, ?_⟩
          show wmMaxSort (wmPrevious db imageId) + 1 = p.sortOrder + 1
          unfold wmMaxSort
          rw [hm]
  · decide

/-- A one-version store for the C3 witness: the only version of image 10
carries one placement at sort order 0; preset 2 is then applied. -/
def c3wdb : DB :=
  { userProfiles := [1], images := [⟨10, 1, "u", 0, ⟨2026, 0, 1⟩⟩],
    versions := [⟨1, 10, "u", .jnull, 1⟩],
    filterLinks := [],
    watermarkLinks := [⟨5, 1, some 9, "T", "nw", 1, "F", 0, 1⟩],
    watermarkPresets := [⟨2, 1, "B", "B", "se", 1, some "F"⟩],
    filters := [], plans := [], subscriptions := [], planFilters := [],
    nextId := 50 }

theorem applyWatermark_carries_forward_witness :
    ∃ v pl db2, applyWatermarkToImage c3wdb 10 2 "u" 7 = (.ok v pl, db2) ∧
      pl.imageVersionId = v.id ∧ pl.watermarkId = some 2 ∧
      ∃ q ∈ c3wdb.watermarkLinks.filter (fun l => l.imageVersionId == (1 : Nat)),
        pl.sortOrder = q.sortOrder + 1 := by
  have hlv : IsLatestVersion c3wdb 10 ⟨1, 10, "u", .jnull, 1⟩ := by
    refine ⟨List.mem_cons_self _ _, rfl, ?_⟩
    intro w hw himg hidne
    have hw2 : w = (⟨1, 10, "u", .jnull, 1⟩ : VersionRow) := List.mem_singleton.mp hw
    exact absurd (congrArg VersionRow.id hw2) hidne
  obtain ⟨hmain, _⟩ := applyWatermark_carries_forward c3wdb 10 2 "u" 7
    (by decide) (by decide)
  obtain ⟨hperm, h2, h3, h4, h5, h6⟩ := hmain _ _ _ _ rfl hlv
  exact ⟨_, _, _, rfl, h2, h3, h6 (by decide)⟩

/-- Counterexample store for C3: image 10 has versions 1 and 2 tied on
`createdAt`; the older row (id 1) carries a placement for preset 9, while
the §3-latest version (id 2, by the id tiebreaker) carries none.  Preset 2
is available to apply. -/
def c3cdb : DB :=
  { userProfiles := [1], images := [⟨10, 1, "u", 0, ⟨2026, 0, 1⟩⟩],
    versions := [⟨1, 10, "u", .jnull, 5⟩, ⟨2, 10, "u", .jnull, 5⟩],
    filterLinks := [],
    watermarkLinks := [⟨30, 1, some 9, "T", "nw", 1, "F", 0, 1⟩],
    watermarkPresets := [⟨2, 1, "B", "B", "se", 1, some "F"⟩],
    filters := [], plans := [], subscriptions := [], planFilters := [],
    nextId := 100 }

/-- C3 counterexample: the §3-latest version (id 2) of resource 10 carries
no placements, so the claim demands that a successful watermark application
yield a new version with exactly one placement at sort order 0 — but the
`createdAt`-only read selects the tied older version (id 1) and carries its
placement forward: the new version ends with two placements and the new
placement sits at sort order 1. -/
theorem wm_carry_counterexample :
    IsLatestVersion c3cdb 10 ⟨2, 10, "u", .jnull, 5⟩ ∧
    c3cdb.watermarkLinks.filter (fun l => l.imageVersionId == (2 : Nat)) = [] ∧
    ∃ v pl db2, applyWatermarkToImage c3cdb 10 2 "u" 7 = (.ok v pl, db2) ∧
      ((db2.watermarkLinks.filter (fun l => l.imageVersionId == v.id)).map
        (fun l => (l.watermarkId, l.sortOrder))) = [(some 9, 0), (some 2, 1)] ∧
      pl.sortOrder = 1 := by
  refine ⟨⟨List.mem_cons_of_mem _ (List.mem_cons_self _ _), rfl, ?_⟩,
    rfl, _, _, _, rfl, rfl, rfl⟩
  intro w hw himg hidne
  rcases List.mem_cons.mp hw with h1 | h1
  · rw [h1]
    right
    exact ⟨rfl, by decide⟩
  · have h2 : w = (⟨2, 10, "u", .jnull, 5⟩ : VersionRow) := List.mem_singleton.mp h1
    exact absurd (congrArg VersionRow.id h2) hidne

/-! ## C4: which reads select the §3 latest version -/

/-- The filter model's latest-version read (full `(createdAt, id)` order)
always selects the §3 maximum. -/
theorem filterSide_latest_eq_spec (db : DB) (imageId : Nat) (lv : VersionRow)
    (hvNodup : db.versions.Pairwise (fun a b => a.id ≠ b.id))
    (hlv : IsLatestVersion db imageId lv) :
    latestVersionFilterSide db imageId = some lv := by
  obtain ⟨hmem, himg, htop⟩ := hlv
  apply selectTop_eq_of_top
  · exact List.mem_filter.mpr ⟨hmem, by simp [himg]⟩
  · simp [versionBeforeFull]
  · intro y hy h1
    simp only [versionBeforeFull, Bool.or_eq_true, Bool.and_eq_true,
      decide_eq_true_eq, beq_iff_eq] at h1
    simp only [versionBeforeFull, Bool.or_eq_false_iff, Bool.and_eq_false_iff]
    constructor
    · simp only [decide_eq_false_iff_not]
      omega
    · rcases h1 with h1 | ⟨he, hid⟩
      · left
        simp only [beq_eq_false_iff_ne, ne_eq]
        omega
      · right
        simp only [decide_eq_false_iff_not]
        omega
  · intro y hy hylv
    have hy2 := List.mem_filter.mp hy
    have hidne : y.id ≠ lv.id := by
      have hsym : Symmetric (fun a b : VersionRow => a.id ≠ b.id) :=
        fun a b h => Ne.symm h
      exact hvNodup.forall hsym hy2.1 hmem hylv
    have hlt := htop y hy2.1 (by simpa using hy2.2) hidne
    simp only [versionBeforeFull, Bool.or_eq_true, Bool.and_eq_true,
      decide_eq_true_eq, beq_iff_eq]
    rcases hlt with hlt | ⟨he, hid⟩
    · left
      exact hlt
    · right
      exact ⟨he.symm, hid⟩

/-- Counterexample store for C4: two versions of resource 10 share a
creation timestamp; version 2 is the §3 maximum, but the watermark-side
read (ordered by `createdAt` alone) returns version 1, the earlier row. -/
def c4db : DB :=
  { userProfiles := [1], images := [⟨10, 1, "u", 0, ⟨2026, 0, 1⟩⟩],
    versions := [⟨1, 10, "u", .jnull, 5⟩, ⟨2, 10, "u", .jnull, 5⟩],
    filterLinks := [], watermarkLinks := [], watermarkPresets := [],
    filters := [], plans := [], subscriptions := [], planFilters := [],
    nextId := 3 }

/-- C4 counterexample: the watermark model's latest-version read does not
select the §3 maximum when creation timestamps tie — it returns the version
with id 1 although the unique §3-latest version has id 2. -/
theorem latest_read_counterexample :
    (latestVersionWatermarkSide c4db 10).map (fun v => v.id) = some 1 ∧
    IsLatestVersion c4db 10 ⟨2, 10, "u", .jnull, 5⟩ ∧
    (∀ v, IsLatestVersion c4db 10 v → v.id = 2) := by
  refine ⟨rfl, ⟨List.mem_cons_of_mem _ (List.mem_cons_self _ _), rfl, ?_⟩, ?_⟩
  · intro w hw himg hidne
    rcases List.mem_cons.mp hw with h1 | h1
    · rw [h1]
      right
      exact ⟨rfl, by decide⟩
    · have h2 : w = (⟨2, 10, "u", .jnull, 5⟩ : VersionRow) := List.mem_singleton.mp h1
      exact absurd (congrArg VersionRow.id h2) hidne
  · intro v hv
    obtain ⟨hmem, himg, htop⟩ := hv
    rcases List.mem_cons.mp hmem with h1 | h1
    · exfalso
      have h2 := htop ⟨2, 10, "u", .jnull, 5⟩
        (List.mem_cons_of_mem _ (List.mem_cons_self _ _)) rfl
        (by rw [h1]; decide)
      rw [h1] at h2
      rcases h2 with h2 | ⟨_, h2⟩ <;> simp at h2
    · exact congrArg VersionRow.id (List.mem_singleton.mp h1)

/-- C4 (amended).  The filter-side latest-version reads
(`getLatestFiltersForImage`, `deleteLatestFilterFromImage`) always select
the §3 maximum (creation timestamp, ties broken by identifier); the
watermark-side reads (`applyWatermarkToImage`, `getLatestWatermarksForImage`)
order by creation timestamp alone and select the §3 maximum only when the
resource's versions have pairwise-distinct creation timestamps. -/
theorem latest_reads_amended (db : DB) (imageId : Nat) (lv : VersionRow)
    (hvNodup : db.versions.Pairwise (fun a b => a.id ≠ b.id))
    (hlv : IsLatestVersion db imageId lv) :
    latestVersionFilterSide db imageId = some lv ∧
    ((∀ v ∈ db.versions, ∀ w ∈ db.versions, v.imageId = imageId →
        w.imageId = imageId → v.id ≠ w.id → v.createdAt ≠ w.createdAt) →
      latestVersionWatermarkSide db imageId = some lv) := by
  exact ⟨filterSide_latest_eq_spec db imageId lv hvNodup hlv,
    fun hts => wm_latest_eq_spec db imageId lv hvNodup hts hlv⟩

theorem latest_reads_amended_witness :
    latestVersionFilterSide c1db 10 = some ⟨1, 10, "a", .jnull, 1⟩ ∧
    latestVersionWatermarkSide c1db 10 = some ⟨1, 10, "a", .jnull, 1⟩ := by
  have hlv : IsLatestVersion c1db 10 ⟨1, 10, "a", .jnull, 1⟩ := by
    refine ⟨List.mem_cons_self _ _, rfl, ?_⟩
    intro w hw himg hidne
    rcases List.mem_cons.mp hw with h1 | h1
    · exact absurd (congrArg VersionRow.id h1) hidne
    · have h2 : w = (⟨2, 11, "b", .jnull, 2⟩ : VersionRow) := List.mem_singleton.mp h1
      rw [h2] at himg
      exact absurd himg (by decide)
  have h := latest_reads_amended c1db 10 ⟨1, 10, "a", .jnull, 1⟩ (by decide) hlv
  exact ⟨h.1, h.2 (by decide)⟩

/-! ## C5: removing the latest link -/

/-- The stable top pick is never strictly preceded by a list element, for a
strict weak order (irreflexive, asymmetric, negatively transitive). -/
theorem selectTop_not_before {b : α → α → Bool} {l : List α}
    (hirr : ∀ a, b a a = false)
    (hasym : ∀ a c, b a c = true → b c a = false)
    (hnegtrans : ∀ a c d, b a c = false → b c d = false → b a d = false) :
    ∀ x, selectTop b l = some x → ∀ y ∈ l, b y x = false := by
  induction l with
  | nil =>
    intro x h
    simp [selectTop] at h
  | cons z zs ih =>
    intro x h y hy
    simp only [selectTop] at h
    rcases hz : selectTop b zs with _ | w <;> rw [hz] at h
    · replace h : some z = some x := h
      injection h with h
      have hyz : y = z := by
        have hzs : zs = [] := selectTop_none.mp hz
        subst hzs
        exact List.mem_singleton.mp hy
      rw [hyz, ← h]
      exact hirr z
    · replace h : (if b w z = true then some w else some z) = some x := h
      by_cases hbw : b w z = true
      · rw [if_pos hbw] at h
        injection h with h
        rcases List.mem_cons.mp hy with h1 | h1
        · rw [h1, ← h]
          exact hasym _ _ hbw
        · rw [← h]
          exact ih w hz y h1
      · rw [if_neg hbw] at h
        injection h with h
        rcases List.mem_cons.mp hy with h1 | h1
        · rw [h1, ← h]
          exact hirr _
        · rw [← h]
          exact hnegtrans y w z (ih w hz y h1) (by simpa using hbw)

/-- Deleting by a predicate that is satisfied by exactly one table position
removes exactly one row. -/
theorem filter_out_unique_length {α : Type} (p : α → Bool) (l : List α)
    (hpair : l.Pairwise (fun a c => ¬(p a = true ∧ p c = true)))
    (x : α) (hx : x ∈ l) (hpx : p x = true) :
    (l.filter (fun y => ! p y)).length + 1 = l.length := by
  induction l with
  | nil => simp at hx
  | cons z zs ih =>
    rcases List.pairwise_cons.mp hpair with ⟨hz, hzs⟩
    rcases List.mem_cons.mp hx with h1 | h1
    · have hpz : p z = true := h1 ▸ hpx
      have hrest : zs.filter (fun y => ! p y) = zs := by
        rw [List.filter_eq_self]
        intro a ha
        simp only [Bool.not_eq_eq_eq_not, Bool.not_true]
        by_contra hpa
        exact hz a ha ⟨hpz, by simpa using hpa⟩
      rw [List.filter_cons, if_neg (by simp [hpz]), hrest, List.length_cons]
    · have hpz : p z = false := by
        by_contra hpz
        exact hz x h1 ⟨by simpa using hpz, hpx⟩
      rw [List.filter_cons, if_pos (by simp [hpz]), List.length_cons,
        List.length_cons]
      rw [ih hzs h1]

theorem getField_setField_same (fields : List (String × JsVal)) (k : String)
    (val : JsVal) (hk : fields.any (fun f => f.1 == k) = true) :
    getField (setField (.obj fields) k val) k = val := by
  simp only [setField]
  rw [if_pos hk]
  simp only [getField]
  induction fields with
  | nil => simp at hk
  | cons f rest ih =>
    simp only [List.map_cons]
    by_cases hf : (f.1 == k) = true
    · rw [if_pos hf, List.find?_cons_of_pos _ (by simpa using hf)]
    · rw [if_neg hf, List.find?_cons_of_neg _ (by simpa using hf)]
      exact ih (by simpa [List.any_cons, hf] using hk)

theorem getField_setField_other (fields : List (String × JsVal)) (k k2 : String)
    (val : JsVal) (hne : k2 ≠ k) :
    getField (setField (.obj fields) k val) k2 = getField (.obj fields) k2 := by
  simp only [setField]
  by_cases hk : fields.any (fun f => f.1 == k) = true
  · rw [if_pos hk]
    simp only [getField]
    rw [List.find?_map]
    have hpred : ((fun f : String × JsVal => f.1 == k2) ∘
        (fun f : String × JsVal => if (f.1 == k) = true then (f.1, val) else f)) =
        (fun f : String × JsVal => f.1 == k2) := by
      funext f
      simp only [Function.comp_apply]
      by_cases hc : (f.1 == k) = true
      · rw [if_pos hc]
      · rw [if_neg hc]
    rw [hpred]
    rcases hf : fields.find? (fun f => f.1 == k2) with _ | f
    · rw [hf]
      rfl
    · rw [hf]
      have hfk : (f.1 == k) = false := by
        have h2 : f.1 = k2 := by simpa using List.find?_some hf
        simp only [h2, beq_eq_false_iff_ne, ne_eq]
        exact hne
      simp only [Option.map_some']
      rw [if_neg (by simp [hfk])]
  · rw [if_neg hk]
    simp only [getField]
    rw [List.find?_append]
    have h1 : List.find? (fun f => f.1 == k2) [(k, val)] = none := by
      have hkk : (k == k2) = false := by
        simp only [beq_eq_false_iff_ne, ne_eq]
        exact fun hq => hne hq.symm
      rw [List.find?_cons_of_neg _ (by simp [hkk])]
      rfl
    rw [h1, Option.or_none]

/-- Counterexample store for C5: image 10 has versions 1 (older, carrying
placement 30 for watermark 7) and 2 (the §3-latest, carrying nothing) — the
state a filter edit after a watermark edit produces, since the filter prune
does not touch watermark rows. -/
def c5db : DB :=
  { userProfiles := [1], images := [⟨10, 1, "u", 0, ⟨2026, 0, 1⟩⟩],
    versions := [⟨1, 10, "u", .jnull, 1⟩, ⟨2, 10, "u", .jnull, 5⟩],
    filterLinks := [],
    watermarkLinks := [⟨30, 1, some 7, "T", "nw", 1, "F", 0, 1⟩],
    watermarkPresets := [], filters := [], plans := [], subscriptions := [],
    planFilters := [], nextId := 40 }

/-- C5 counterexample: the latest version (id 2) of resource 10 carries no
placement for watermark 7, so the claim demands `NotFound` with no state
change — but `deleteLatestWatermarkFromImage` deletes row 30, which belongs
to the non-latest version 1. -/
theorem removeLatest_watermark_counterexample :
    (deleteLatestWatermarkFromImage c5db 10 7).1 = some 30 ∧
    (deleteLatestWatermarkFromImage c5db 10 7).2.watermarkLinks = [] ∧
    IsLatestVersion c5db 10 ⟨2, 10, "u", .jnull, 5⟩ ∧
    (∀ l ∈ c5db.watermarkLinks, l.imageVersionId ≠ 2) := by
  refine ⟨rfl, rfl, ⟨List.mem_cons_of_mem _ (List.mem_cons_self _ _), rfl, ?_⟩,
    by decide⟩
  intro w hw himg hidne
  rcases List.mem_cons.mp hw with h1 | h1
  · rw [h1]
    left
    decide
  · have h2 : w = (⟨2, 10, "u", .jnull, 5⟩ : VersionRow) := List.mem_singleton.mp h1
    exact absurd (congrArg VersionRow.id h2) hidne

theorem any_of_getField_arr (flds : List (String × JsVal)) (key : String)
    (fs : List JsVal) (h : getField (.obj flds) key = .arr fs) :
    flds.any (fun f => f.1 == key) = true := by
  by_contra hany
  have hnone : flds.find? (fun f => f.1 == key) = none := by
    rw [List.find?_eq_none]
    intro f hf
    intro hpf
    exact hany (List.any_eq_true.mpr ⟨f, hf, hpf⟩)
  simp only [getField, hnone] at h
  cases h

theorem getField_setField_setField (fields : List (String × JsVal))
    (k1 k2 : String) (v1 v2 : JsVal) (hne : k1 ≠ k2)
    (hany : fields.any (fun f => f.1 == k1) = true) :
    getField (setField (setField (.obj fields) k1 v1) k2 v2) k1 = v1 := by
  obtain ⟨g, hg⟩ : ∃ g, setField (JsVal.obj fields) k1 v1 = JsVal.obj g := by
    simp only [setField]
    by_cases h : fields.any (fun f => f.1 == k1) = true
    · rw [if_pos h]
      exact ⟨_, rfl⟩
    · rw [if_neg h]
      exact ⟨_, rfl⟩
  rw [hg, getField_setField_other g k2 k1 v2 hne, ← hg,
    getField_setField_same fields k1 v1 hany]

/-- C5 (amended).  The filter-side `deleteLatestFilterFromImage` behaves as
the claim states: it returns `NotFound` and changes nothing when the
resource has no version or the latest version has no link for the filter;
otherwise it deletes exactly that one link of the latest version, creates
no version, and rewrites the latest version's `metadata.filters` array
without the removed filter.  The watermark-side
`deleteLatestWatermarkFromImage`, however, deletes the matching placement
with the greatest applied timestamp on any of the resource's versions (not
necessarily the latest), performs no metadata reconciliation, and returns
`NotFound` with no changes only when no version of the resource carries a
matching placement. -/
theorem removeLatestLink_amended (db : DB) (imageId : Nat) (filterId wmId : Int)
    (hwf : db.Wf) :
    (db.versions.filter (fun v => v.imageId == imageId) = [] →
      deleteLatestFilterFromImage db imageId filterId = (none, db)) ∧
    (∀ lv, IsLatestVersion db imageId lv →
      (db.filterLinks.find? (fun l =>
          l.imageVersionId == lv.id && l.filterId == filterId) = none →
        deleteLatestFilterFromImage db imageId filterId = (none, db)) ∧
      (∀ lnk, db.filterLinks.find? (fun l =>
          l.imageVersionId == lv.id && l.filterId == filterId) = some lnk →
        (deleteLatestFilterFromImage db imageId filterId).1 =
          some (lv.id, filterId) ∧
        (deleteLatestFilterFromImage db imageId filterId).2.filterLinks.length + 1 =
          db.filterLinks.length ∧
        (∀ l ∈ db.filterLinks, ¬(l.imageVersionId = lv.id ∧ l.filterId = filterId) →
          l ∈ (deleteLatestFilterFromImage db imageId filterId).2.filterLinks) ∧
        (∀ l ∈ (deleteLatestFilterFromImage db imageId filterId).2.filterLinks,
          l ∈ db.filterLinks ∧ ¬(l.imageVersionId = lv.id ∧ l.filterId = filterId)) ∧
        ((deleteLatestFilterFromImage db imageId filterId).2.versions.map
            (fun v => v.id) = db.versions.map (fun v => v.id)) ∧
        (∀ flds fs, lv.metadata = .obj flds →
          getField lv.metadata "filters" = .arr fs →
          ∃ lv2 ∈ (deleteLatestFilterFromImage db imageId filterId).2.versions,
            lv2.id = lv.id ∧
            getField lv2.metadata "filters" = .arr (fs.filter (fun f =>
              match getField f "filterId" with
              | .num q => (q ≠ (filterId : Rat) : Bool)
              | _ => true))))) ∧
    ((∀ l ∈ db.watermarkLinks, ¬(l.watermarkId = some wmId ∧
        versionImageId db.versions l.imageVersionId = some imageId)) →
      deleteLatestWatermarkFromImage db imageId wmId = (none, db)) ∧
    (∀ rid, (deleteLatestWatermarkFromImage db imageId wmId).1 = some rid →
      ∃ t ∈ db.watermarkLinks, t.id = rid ∧ t.watermarkId = some wmId ∧
        versionImageId db.versions t.imageVersionId = some imageId ∧
        (∀ c ∈ db.watermarkLinks, c.watermarkId = some wmId →
          versionImageId db.versions c.imageVersionId = some imageId →
          c.appliedAt ≤ t.appliedAt) ∧
        (deleteLatestWatermarkFromImage db imageId wmId).2.watermarkLinks.length + 1 =
          db.watermarkLinks.length ∧
        (deleteLatestWatermarkFromImage db imageId wmId).2.versions = db.versions) := by
  obtain ⟨hvIds, hvNodup, hfRef, hwRef, hwIds, hwNodup, hfKey, hwSort⟩ := hwf
  refine ⟨?_, ?_, ?_, ?_⟩
  · intro hvempty
    unfold deleteLatestFilterFromImage
    have hnone : latestVersionFilterSide db imageId = none := by
      unfold latestVersionFilterSide
      rw [hvempty]
      rfl
    rw [hnone]
  · intro lv hlv
    have hlatest : latestVersionFilterSide db imageId = some lv :=
      filterSide_latest_eq_spec db imageId lv hvNodup hlv
    constructor
    · intro hfind
      unfold deleteLatestFilterFromImage
      rw [hlatest]
      simp only [hfind]
    · intro lnk hfind
      have hkey := List.find?_some hfind
      simp only [Bool.and_eq_true, beq_iff_eq] at hkey
      obtain ⟨hkv, hkf⟩ := hkey
      have hmemlnk := List.mem_of_find?_eq_some hfind
      have hres : deleteLatestFilterFromImage db imageId filterId =
          ((some (lnk.imageVersionId, lnk.filterId)),
            { db with
              filterLinks := db.filterLinks.filter (fun l =>
                ! (l.imageVersionId == lnk.imageVersionId &&
                  l.filterId == lnk.filterId)),
              versions :=
                match lv.metadata with
                | .obj fields =>
                  if fields.any (fun f => f.1 == "filters") then
                    match getField lv.metadata "filters" with
                    | .arr fs =>
                      let nextFilters := fs.filter (fun f =>
                        match getField f "filterId" with
                        | .num q => (q ≠ (filterId : Rat) : Bool)
                        | _ => true)
                      let nextIds := nextFilters.filterMap (fun f =>
                        match getField f "filterId" with
                        | .num q => some (JsVal.num q)
                        | _ => none)
                      let newMd := setField (setField lv.metadata "filters"
                        (.arr nextFilters)) "filterIds" (.arr nextIds)
                      db.versions.map (fun v =>
                        if v.id == lv.id then { v with metadata := newMd } else v)
                    | _ => db.versions
                  else db.versions
                | _ => db.versions }) := by
        unfold deleteLatestFilterFromImage
        rw [hlatest]
        simp only [hfind]
      rw [hres]
      have hkeyeq : ∀ l : FilterLinkRow,
          ((l.imageVersionId == lnk.imageVersionId && l.filterId == lnk.filterId) =
            true) ↔ (l.imageVersionId = lv.id ∧ l.filterId = filterId) := by
        intro l
        rw [← hkv, ← hkf]
        simp
      refine ⟨by rw [hkv, hkf], ?_, ?_, ?_, ?_, ?_⟩
      · refine filter_out_unique_length _ _ ?_ lnk hmemlnk (by simp)
        apply hfKey.imp
        intro a c hac hpac
        rw [hkeyeq a, hkeyeq c] at hpac
        exact hac ⟨hpac.1.1.trans hpac.2.1.symm, hpac.1.2.trans hpac.2.2.symm⟩
      · intro l hl hnk
        apply List.mem_filter.mpr
        refine ⟨hl, ?_⟩
        simp only [Bool.not_eq_eq_eq_not, Bool.not_true]
        by_contra hp
        exact hnk ((hkeyeq l).mp (by simpa using hp))
      · intro l hl
        have := List.mem_filter.mp hl
        refine ⟨this.1, ?_⟩
        intro hk
        have hp := (hkeyeq l).mpr hk
        rw [hp] at this
        simp at this
      · rcases hmd : lv.metadata with _ | _ | b0 | q0 | st0 | fs0 | flds0 <;>
          (simp only [hmd]; try rfl)
        by_cases hany : flds0.any (fun f => f.1 == "filters") = true
        · rw [if_pos hany]
          rcases hgf : getField (JsVal.obj flds0) "filters" with
              _ | _ | b1 | q1 | st1 | fs1 | f1 <;>
            (simp only [hgf]; try rfl)
          rw [List.map_map]
          apply List.map_congr_left
          intro w _
          simp only [Function.comp_apply]
          by_cases hw : (w.id == lv.id) = true
          · rw [if_pos hw]
          · rw [if_neg hw]
        · rw [if_neg hany]
      · intro flds fs hmdobj hfs
        have hany : flds.any (fun f => f.1 == "filters") = true :=
          any_of_getField_arr flds "filters" fs (hmdobj ▸ hfs)
        rw [hmdobj] at hfs
        simp only [hmdobj, if_pos hany, hfs]
        refine ⟨_, List.mem_map_of_mem _ hlv.1, ?_, ?_⟩
        · simp
        · simp only [beq_self_eq_true, if_true]
          exact getField_setField_setField flds "filters" "filterIds" _ _
            (by decide) hany
  · intro hnone
    unfold deleteLatestWatermarkFromImage
    have hcand : db.watermarkLinks.filter (fun l =>
        l.watermarkId == some wmId &&
          versionImageId db.versions l.imageVersionId == some imageId) = [] := by
      rw [List.filter_eq_nil_iff]
      intro l hl
      simp only [Bool.and_eq_true, beq_iff_eq, not_and]
      intro h1 h2
      exact hnone l hl ⟨h1, h2⟩
    rw [hcand]
    rfl
  · intro rid hrid
    rcases hsel : selectTop (fun a b => b.appliedAt < a.appliedAt)
        (db.watermarkLinks.filter (fun l =>
          l.watermarkId == some wmId &&
            versionImageId db.versions l.imageVersionId == some imageId)) with _ | t
    · have hres : deleteLatestWatermarkFromImage db imageId wmId = (none, db) := by
        unfold deleteLatestWatermarkFromImage
        simp only [hsel]
      rw [hres] at hrid
      cases hrid
    · have hres : deleteLatestWatermarkFromImage db imageId wmId =
          (some t.id, { db with watermarkLinks :=
            db.watermarkLinks.filter (fun l => l.id != t.id) }) := by
        unfold deleteLatestWatermarkFromImage
        simp only [hsel]
      rw [hres] at hrid
      replace hrid : some t.id = some rid := hrid
      injection hrid with hrid
      have htc := selectTop_mem hsel
      have htmem := List.mem_filter.mp htc
      have htprop := htmem.2
      simp only [Bool.and_eq_true, beq_iff_eq] at htprop
      refine ⟨t, htmem.1, hrid, htprop.1, htprop.2, ?_, ?_, ?_⟩
      · intro c hc h1 h2
        have hcc : c ∈ db.watermarkLinks.filter (fun l =>
            l.watermarkId == some wmId &&
              versionImageId db.versions l.imageVersionId == some imageId) := by
          apply List.mem_filter.mpr
          exact ⟨hc, by simp [h1, h2]⟩
        have := selectTop_not_before
          (b := fun a b : WatermarkLinkRow => (b.appliedAt < a.appliedAt : Bool))
          (by intro a; simp)
          (by
            intro a c2 h
            simp only [decide_eq_true_eq] at h
            simp only [decide_eq_false_iff_not]
            omega)
          (by
            intro a c2 d h1b h2b
            simp only [decide_eq_false_iff_not] at h1b h2b
            simp only [decide_eq_false_iff_not]
            omega)
          t hsel c hcc
        simp only [decide_eq_false_iff_not] at this
        omega
      · rw [hres]
        show (db.watermarkLinks.filter (fun l => l.id != t.id)).length + 1 =
          db.watermarkLinks.length
        refine filter_out_unique_length (fun l => l.id == t.id) _ ?_ t htmem.1
          (by simp)
        apply hwNodup.imp
        intro a c hac hpac
        simp only [beq_iff_eq] at hpac
        exact hac (hpac.1.trans hpac.2.symm)
      · rw [hres]

theorem removeLatestLink_amended_witness :
    c5db.Wf ∧
    ∃ t ∈ c5db.watermarkLinks, t.id = 30 ∧ t.watermarkId = some 7 ∧
      versionImageId c5db.versions t.imageVersionId = some 10 ∧
      (∀ c ∈ c5db.watermarkLinks, c.watermarkId = some 7 →
        versionImageId c5db.versions c.imageVersionId = some 10 →
        c.appliedAt ≤ t.appliedAt) ∧
      (deleteLatestWatermarkFromImage c5db 10 7).2.watermarkLinks.length + 1 =
        c5db.watermarkLinks.length ∧
      (deleteLatestWatermarkFromImage c5db 10 7).2.versions = c5db.versions :=
  ⟨by decide, (removeLatestLink_amended c5db 10 7 7 (by decide)).2.2.2 30 rfl⟩

end PPAW
